import Mathlib

/-!
Verification of the KARP Inspector Lite core (Node.js sources
`server/indexer.js` and `server/searcher.js`) against its natural-language
specification.

The JavaScript sources are shallowly embedded below.  Conventions used
throughout the embedding:

* JS strings are Lean `String`s; the witnesses use ASCII data only, where
  JS UTF-16 `length` coincides with Lean `String.length`.
* JS numbers occurring in vector arithmetic are embedded as `ℝ`; the one
  place where IEEE semantics matter (division by a zero denominator in
  `cosineSimilarity`, which yields `NaN` in JS) is modelled explicitly by
  an `Option ℝ` result, `none` standing for `NaN`.
* The filesystem is abstracted: functions that read files receive the file
  contents as arguments (a run of `indexProject` receives the list of
  discovered `(absolute path, content)` pairs that `discoverFiles` +
  `fs.readFileSync` would produce).  Disk persistence (`saveIndex`,
  `saveSnapshot`) has no effect on the in-memory state modelled here.
* External collaborators (the SHA-256 digest, the ONNX embedding model and
  the acorn JS parser) are parameters of the embedding, bundled in `Env`.
  A failing embedding model is `embedFn t = none` (the JS promise
  rejecting); the exception propagation of `indexProject`/`reindexFile` is
  modelled by an `Except` result paired with the store as mutated at the
  time the exception escapes.
* The JS `hashMap` object is modelled as an association list with
  overwrite-on-assign semantics.
-/

namespace Karp

/-- A code chunk as produced by the chunkers in `indexer.js`
(`{name, chunk_type, filepath, line_start, line_end, text}`).
`line_start`/`line_end` are 1-based line numbers. -/
structure Chunk where
  name : String
  chunk_type : String
  filepath : String
  line_start : Nat
  line_end : Nat
  text : String
deriving DecidableEq, Repr

/-- An entry of the in-memory vector store (`{id, embedding, payload}`). -/
structure VectorEntry where
  id : String
  embedding : List ℝ
  payload : Chunk

/-- The mutable module state `vectorStore` of `indexer.js`:
`{vectors, hashMap, isIndexed}`.  The JS object `hashMap` (file path →
sha256 hex digest) is an association list here. -/
structure VectorStore where
  vectors : List VectorEntry
  hashMap : List (String × String)
  isIndexed : Bool

/-- `CACHE_VERSION` constant of `indexer.js`. -/
def CACHE_VERSION : Int := 1

/-- `DEFAULTS.maxChunkChars` of `indexer.js`. -/
def maxChunkChars : Nat := 1500

/-- The parsed persisted cache document
`{version, created, projectRoot, hashMap, vectors}` (the `created`
timestamp is irrelevant to the logic and omitted). -/
structure Cache where
  version : Int
  projectRoot : String
  hashMap : List (String × String)
  vectors : List VectorEntry

/-- External collaborators of `indexer.js`, abstracted as parameters:
`hashFn` is the sha256 hex digest of `computeHash`, `embedFn` the ONNX
embedding model (`none` models a rejected promise), `jsParse` the acorn
parser together with the AST walk of `chunkJavaScript` (`none` models a
parse failure, `some decls` the visited declaration nodes in walk order).
-/
structure JsDecl where
  declName : Option String
  kind : String
  line_start : Nat
  line_end : Nat

structure Env where
  hashFn : String → String
  embedFn : String → Option (List ℝ)
  jsParse : String → Option (List JsDecl)

/-! ## JS string primitives.

`String.prototype.split`, `trim`, `startsWith` and `toLowerCase` are
re-implemented structurally over the character list so that every
definition evaluates inside the kernel.  `isWsChar` is the ASCII part of
the JS `\\s` class / `trim` whitespace set. -/

def isWsChar (c : Char) : Bool :=
  c == ' ' || c == '\t' || c == '\n' || c == '\r' || c == '\x0b' || c == '\x0c'

/-- `s.trim()`: strip `isWsChar` characters from both ends. -/
def jsTrim (s : String) : String :=
  String.mk (((s.data.dropWhile isWsChar).reverse.dropWhile isWsChar).reverse)

/-- `s.split(sep)` for a single-character separator (the only form the
sources use: `split('\n')` and path splitting). -/
def splitCharGo (sep : Char) (acc : List Char) : List Char → List String
  | [] => [String.mk acc.reverse]
  | c :: t =>
    if c == sep then String.mk acc.reverse :: splitCharGo sep [] t
    else splitCharGo sep (c :: acc) t

def splitChar (sep : Char) (s : String) : List String :=
  splitCharGo sep [] s.data

/-- `s.startsWith(pre)`. -/
def strStartsWith (s pre : String) : Bool :=
  List.isPrefixOf pre.data s.data

/-- ASCII lower-casing of a character (`toLowerCase` on the ASCII
extensions the extension table contains). -/
def asciiLower (c : Char) : Char :=
  if 65 ≤ c.toNat ∧ c.toNat ≤ 90 then Char.ofNat (c.toNat + 32) else c

/-- `Array.prototype.join(sep)`. -/
def strJoin (sep : String) : List String → String
  | [] => ""
  | [s] => s
  | s :: t => s ++ sep ++ strJoin sep t

/-! ## Path helpers (`path.join`, `path.relative`, `path.basename`,
`path.extname`), modelled for POSIX-style separator-normalised paths as the
spec's Chunk data model assumes (`file_path` relative, stable across OS
path separators). -/

/-- `path.join(root, fp)` for a relative `fp` under `root`. -/
def pathJoin (root fp : String) : String :=
  if root = "" then fp else root ++ "/" ++ fp

/-- `path.relative(root, full)` for the well-formed case where `full`
lies under `root`: strip the `root ++ "/"` prefix, otherwise return the
path unchanged. -/
def path_relative (root full : String) : String :=
  if root = "" then full
  else if List.isPrefixOf (root ++ "/").data full.data then
    String.mk (full.data.drop (root.length + 1))
  else full

/-- `path.basename`: the last `/`-separated component. -/
def baseName (p : String) : String :=
  (splitChar '/' p).getLastD ""

/-- Index of the last occurrence of `c` in `l`, if any. -/
def lastIdxOf (c : Char) (l : List Char) : Option Nat :=
  match l with
  | [] => none
  | a :: t =>
    match lastIdxOf c t with
    | some i => some (i + 1)
    | none => if a = c then some 0 else none

/-- `path.extname(p).toLowerCase()`: the suffix of the basename from its
last dot (empty when there is no dot or the only dot is the leading
character of the basename). -/
def extName (p : String) : String :=
  let base := baseName p
  match lastIdxOf '.' base.data with
  | none => ""
  | some 0 => ""
  | some i => String.mk ((base.data.drop i).map asciiLower)

/-! ## hashMap operations (JS object property read / assignment). -/

/-- `hashMap[k]` (`undefined` is `none`). -/
def hmLookup (hm : List (String × String)) (k : String) : Option String :=
  match hm with
  | [] => none
  | (k', v) :: t => if k' = k then some v else hmLookup t k

/-- `hashMap[k] = v` (overwrite or append). -/
def hmSet (hm : List (String × String)) (k v : String) :
    List (String × String) :=
  match hm with
  | [] => [(k, v)]
  | (k', v') :: t => if k' = k then (k, v) :: t else (k', v') :: hmSet t k v

/-! ## Fixed-size chunking (`chunkFixedSize`, indexer.js lines 433-462).

The JS loop accumulates `currentText += lines[i] + '\n'` and pushes a
chunk when `currentText.length >= DEFAULTS.maxChunkChars` or the last
line is reached, labelling it `basename:L{chunkStart}-{i+1}` and trimming
the accumulated text. -/

/-- One step of the `chunkFixedSize` loop: `curLine` is the 1-based number
of the line at the head of the remaining list, `chunkStart` the 1-based
first line of the chunk being accumulated, `acc` the accumulated
`currentText`. -/
def chunkFSGo (relPath base : String) :
    List String → Nat → Nat → String → List Chunk
  | [], _, _, _ => []
  | l :: rest, curLine, chunkStart, acc =>
    let t := acc ++ l ++ "\n"
    if maxChunkChars ≤ t.length ∨ rest = [] then
      { name := base ++ ":L" ++ toString chunkStart ++ "-" ++ toString curLine,
        chunk_type := "file_chunk", filepath := relPath,
        line_start := chunkStart, line_end := curLine, text := jsTrim t } ::
      chunkFSGo relPath base rest (curLine + 1) (curLine + 1) ""
    else
      chunkFSGo relPath base rest (curLine + 1) chunkStart t

/-- `chunkFixedSize(filepath, source)`.  The module-global `projectRoot`
is an explicit argument `root`. -/
def chunkFixedSize (root filepath source : String) : List Chunk :=
  let relPath := path_relative root filepath
  let lines := splitChar '\n' source
  if jsTrim source = "" then []
  else chunkFSGo relPath (baseName filepath) lines 1 1 ""

/-! ## Diff engine (`simpleDiff` / `fileDiff`, searcher.js lines 398-462). -/

/-- The per-index emission of the `simpleDiff` loop: skip equal lines,
emit `-old` and `+new` when both sides exist and differ, emit only the
one-sided line when the other side has no line at that index.  (For
`i < max(len old, len new)` at least one side is defined, so the JS
`oldLine === newLine` test on two `undefined`s never fires.) -/
def diffEmit (oldLines newLines : List String) (i : Nat) : List String :=
  match oldLines.get? i, newLines.get? i with
  | some o, some n => if o = n then [] else ["-" ++ o, "+" ++ n]
  | none, some n => ["+" ++ n]
  | some o, none => ["-" ++ o]
  | none, none => []

/-- The `for (let i = 0; i < maxLen; i++)` loop of `simpleDiff`: `i` is
the current index, the second argument the number of remaining
iterations. -/
def simpleDiffGo (oldLines newLines : List String) (i : Nat) :
    Nat → List String
  | 0 => []
  | k + 1 =>
    diffEmit oldLines newLines i ++ simpleDiffGo oldLines newLines (i + 1) k

/-- `simpleDiff(oldLines, newLines, oldLabel, newLabel)`. -/
def simpleDiff (oldLines newLines : List String) (oldLabel newLabel : String) :
    List String :=
  ("--- " ++ oldLabel) :: ("+++ " ++ newLabel) ::
    simpleDiffGo oldLines newLines 0 (max oldLines.length newLines.length)

/-- The addition/deletion counting of `fileDiff` (searcher.js lines
429-431), applied to two snapshots' line lists: additions are emitted
lines starting with `+` but not `+++`, deletions those starting with `-`
but not `---`. -/
def fileDiffCounts (oldLines newLines : List String)
    (oldLabel newLabel : String) : Nat × Nat :=
  let diffLines := simpleDiff oldLines newLines oldLabel newLabel
  ((diffLines.filter fun l => strStartsWith l "+" && !strStartsWith l "+++").length,
   (diffLines.filter fun l => strStartsWith l "-" && !strStartsWith l "---").length)


/-! ## Cosine similarity and vector search (indexer.js lines 116-139).

The JS loop runs `for (i = 0; i < a.length; i++)`; for the equal-length
vectors all claims quantify over, the `zipWith`/`map` sums below coincide
with it.  `cosSim` is the real value of the source expression
`dot / (Math.sqrt(normA) * Math.sqrt(normB))`, meaningful whenever the
denominator is nonzero; `cosineSimilarity` additionally records the IEEE
outcome at a zero denominator — there the JS expression is `0 / 0 = NaN`
(a zero norm forces a zero dot product), modelled as `none`. -/

def dotp (a b : List ℝ) : ℝ := (List.zipWith (· * ·) a b).sum

def normSq (a : List ℝ) : ℝ := (a.map fun x => x * x).sum

noncomputable def denom (a b : List ℝ) : ℝ :=
  Real.sqrt (normSq a) * Real.sqrt (normSq b)

noncomputable def cosSim (a b : List ℝ) : ℝ := dotp a b / denom a b

noncomputable def cosineSimilarity (a b : List ℝ) : Option ℝ :=
  if denom a b = 0 then none else some (cosSim a b)

/-- A scored search candidate (`{...v, score}` in `vectorSearch`). -/
structure Scored where
  entry : VectorEntry
  score : ℝ

/-- The filter + scoring steps of `vectorSearch`: candidates passing
`filterFn` (all of them when the JS argument is `null`), each paired
with its cosine score against the query. -/
noncomputable def scoredCandidates (queryEmbedding : List ℝ)
    (filterFn : Option (Chunk → Bool)) (store : VectorStore) : List Scored :=
  let candidates : List VectorEntry := match filterFn with
    | some f => store.vectors.filter fun v => f v.payload
    | none => store.vectors
  candidates.map fun v : VectorEntry =>
    { entry := v, score := cosSim queryEmbedding v.embedding }

noncomputable instance : DecidableRel fun x y : Scored => y.score ≤ x.score :=
  fun x y => Real.decidableLE y.score x.score

/-- The sorting step `scored.sort((a, b) => b.score - a.score)`.
ECMAScript (2019 and later, as Node implements) requires
`Array.prototype.sort` to be stable; for entries with well-defined
scores the comparator induces the total preorder `y.score ≤ x.score`,
and the output of a stable sort by a total preorder is unique, so any
stable sorting algorithm is a faithful model — insertion sort here. -/
noncomputable def vectorSearchSorted (queryEmbedding : List ℝ)
    (filterFn : Option (Chunk → Bool)) (store : VectorStore) : List Scored :=
  List.insertionSort (fun x y => y.score ≤ x.score)
    (scoredCandidates queryEmbedding filterFn store)

/-- `vectorSearch(queryEmbedding, limit, filterFn)`: score, sort
descending, keep the top `limit` (`.slice(0, limit)`). -/
noncomputable def vectorSearch (queryEmbedding : List ℝ) (limit : Nat)
    (filterFn : Option (Chunk → Bool)) (store : VectorStore) : List Scored :=
  (vectorSearchSorted queryEmbedding filterFn store).take limit

/-! ## Python chunking (`chunkPython`, indexer.js lines 249-352).

The two header regexes
`^( {0,8})(async\s+)?def\s+(\w+)\s*\(` and
`^( {0,4})class\s+(\w+)(?:\s*\(([^)]*)\))?\s*:`, the substring test
`line.includes('):')` and the signature-end regex
`\)\s*(->[^:]*)?:\s*$` are hand-compiled to character-list matchers
(`\s` is `isWsChar`, `\w` ASCII alphanumerics and underscore; the only
backtracking in these patterns — the optional groups — is resolved
explicitly, and the maximal `\w+` match is equivalent because no word
character can start the tail). -/

def isWordChar (c : Char) : Bool := c.isAlphanum || c == '_'

def countLeadingSpaces : List Char → Nat
  | ' ' :: t => countLeadingSpaces t + 1
  | _ => 0

/-- Length of the `^(\s*)` match used for the body-indent test. -/
def countLeadingWs : List Char → Nat
  | c :: t => if isWsChar c then countLeadingWs t + 1 else 0
  | [] => 0

/-- Match a literal, returning the remainder. -/
def dropLit : List Char → List Char → Option (List Char)
  | [], s => some s
  | _ :: _, [] => none
  | c :: p, d :: s => if c = d then dropLit p s else none

/-- `\s*`. -/
def wsStar : List Char → List Char
  | c :: t => if isWsChar c then wsStar t else c :: t
  | [] => []

/-- `\s+`. -/
def wsPlus : List Char → Option (List Char)
  | c :: t => if isWsChar c then some (wsStar t) else none
  | [] => none

/-- Maximal `\w*` split. -/
def takeWord : List Char → List Char × List Char
  | c :: t =>
    if isWordChar c then
      let p := takeWord t
      (c :: p.1, p.2)
    else ([], c :: t)
  | [] => ([], [])

/-- `def\s+(\w+)\s*\(` — the function-header regex after the optional
`async`. -/
def pyDefCore (r : List Char) : Option String := do
  let r ← dropLit "def".data r
  let r ← wsPlus r
  let w := takeWord r
  if w.1 = [] then none
  else
    match wsStar w.2 with
    | '(' :: _ => some (String.mk w.1)
    | _ => none

/-- `funcStartRegex`: returns (captured indent length, function name).
When `async` matches but the rest fails, the regex backtracks to the
group-less alternative, which then fails on `def` — equivalent to
failing outright. -/
def pyFuncMatch (line : String) : Option (Nat × String) :=
  let cs := line.data
  let k := countLeadingSpaces cs
  if 8 < k then none
  else
    let rest := cs.drop k
    let matched := match dropLit "async".data rest with
      | some r1 =>
        match wsPlus r1 with
        | some r2 => pyDefCore r2
        | none => pyDefCore rest
      | none => pyDefCore rest
    matched.map fun n => (k, n)

/-- After the class name: `(?:\s*\(([^)]*)\))?\s*:` — first with the
optional parenthesis group, else without. -/
def pyClassTail (r : List Char) : Bool :=
  let withParen := match wsStar r with
    | '(' :: r2 =>
      match r2.dropWhile (fun c => !(c == ')')) with
      | ')' :: r4 =>
        (match wsStar r4 with
         | ':' :: _ => true
         | _ => false)
      | _ => false
    | _ => false
  let direct := match wsStar r with
    | ':' :: _ => true
    | _ => false
  withParen || direct

/-- `classRegex`: returns (captured indent length, class name). -/
def pyClassMatch (line : String) : Option (Nat × String) :=
  let cs := line.data
  let k := countLeadingSpaces cs
  if 4 < k then none
  else
    let rest := cs.drop k
    match dropLit "class".data rest with
    | none => none
    | some r1 =>
      match wsPlus r1 with
      | none => none
      | some r2 =>
        let w := takeWord r2
        if w.1 = [] then none
        else if pyClassTail w.2 then some (k, String.mk w.1) else none

/-- `s.includes(sub)`. -/
def strIncludesAux (pat : List Char) : List Char → Bool
  | [] => List.isPrefixOf pat []
  | c :: t => List.isPrefixOf pat (c :: t) || strIncludesAux pat t

def strIncludes (s sub : String) : Bool := strIncludesAux sub.data s.data

/-- The signature-end regex tested just after one `)`. -/
def pySigEndTail (t : List Char) : Bool :=
  match wsStar t with
  | '-' :: '>' :: r2 =>
    (match r2.dropWhile (fun c => !(c == ':')) with
     | ':' :: r4 => (wsStar r4).isEmpty
     | _ => false)
  | ':' :: r4 => (wsStar r4).isEmpty
  | _ => false

def pySigEndGo : List Char → Bool
  | [] => false
  | ')' :: t => pySigEndTail t || pySigEndGo t
  | _ :: t => pySigEndGo t

/-- `line.match(/\)\s*(->[^:]*)?:\s*$/) !== null`. -/
def pySigEnd (line : String) : Bool := pySigEndGo line.data

/-- The chunk being accumulated by the `chunkPython` loop
(`currentChunk` before its `line_end`/`text` fields are filled in at
flush time; `indent` is `currentIndent`). -/
structure PyCur where
  curName : String
  curType : String
  startLine : Nat
  indent : Nat
  curLines : List String

/-- Closing a `currentChunk` at 1-based line `lineEnd`
(`currentChunk.text = currentChunk.lines.join('\n')`). -/
def pyFlush (relPath : String) (cur : PyCur) (lineEnd : Nat) : Chunk :=
  { name := cur.curName, chunk_type := cur.curType, filepath := relPath,
    line_start := cur.startLine, line_end := lineEnd,
    text := strJoin "\n" cur.curLines }

/-- The multi-line-signature lookahead (`for j = i+1; j < min(i+20, n)`):
returns the lines pushed onto the current chunk and the index at which
`i = j; break` fired, if any. -/
def pySigScanGo (lines : List String) (bound j : Nat) :
    List String × Option Nat :=
  if h : j < bound then
    let l := lines.getD j ""
    if strIncludes l "):" || pySigEnd l then ([l], some j)
    else
      let p := pySigScanGo lines bound (j + 1)
      (l :: p.1, p.2)
  else ([], none)
termination_by bound - j

def pySigScan (lines : List String) (i : Nat) : List String × Option Nat :=
  pySigScanGo lines (min (i + 20) lines.length) (i + 1)

/-- The main `chunkPython` loop over line index `i`.  The `i = j` jump
of the signature lookahead becomes `nextI`; the lookahead only returns
indices greater than `i`, so the `max` below never truncates — it only
makes the decrease of `lines.length - i` evident. -/
def chunkPyGo (relPath : String) (lines : List String) (i : Nat)
    (cur : Option PyCur) : List Chunk :=
  if h : i < lines.length then
    let line := lines.getD i ""
    let clsM := pyClassMatch line
    let fnM := pyFuncMatch line
    if clsM.isSome || fnM.isSome then
      let flushed := match cur with
        | some c => if 0 < c.curLines.length then [pyFlush relPath c i] else []
        | none => []
      let info := match clsM with
        | some kn => (kn.1, kn.2, "class")
        | none => match fnM with
          | some kn => (kn.1, kn.2, "function")
          | none => (0, "", "function")
      let scan := if fnM.isSome && !strIncludes line "):" && !pySigEnd line
        then pySigScan lines i else ([], none)
      let nextI := max (scan.2.getD i) i + 1
      flushed ++ chunkPyGo relPath lines nextI
        (some ⟨info.2.1, info.2.2, i + 1, info.1, line :: scan.1⟩)
    else
      match cur with
      | none => chunkPyGo relPath lines (i + 1) none
      | some c =>
        if jsTrim line = "" ∨ c.indent < countLeadingWs line.data then
          chunkPyGo relPath lines (i + 1)
            (some { c with curLines := c.curLines ++ [line] })
        else
          pyFlush relPath c i :: chunkPyGo relPath lines (i + 1) none
  else
    match cur with
    | some c => if 0 < c.curLines.length then [pyFlush relPath c lines.length] else []
    | none => []
termination_by lines.length - i
decreasing_by
  all_goals omega

/-- The synthetic-header step of `chunkPython` (lines 324-337): when the
first chunk starts after line 1 and the text before it is nonempty after
trimming, prepend a `file_header` chunk. -/
def pyWithHeader (root filepath source : String) (chunks : List Chunk) :
    List Chunk :=
  match chunks with
  | [] => chunks
  | c0 :: _ =>
    if 1 < c0.line_start then
      let headerText := jsTrim (strJoin "\n"
        ((splitChar '\n' source).take (c0.line_start - 1)))
      if headerText ≠ "" then
        { name := baseName filepath ++ ":header", chunk_type := "file_header",
          filepath := path_relative root filepath, line_start := 1,
          line_end := c0.line_start - 1, text := headerText } :: chunks
      else chunks
    else chunks

/-- `chunkPython(filepath, source)`: the loop, then the synthetic header
chunk for content before the first declaration, then the whole-file
fallback (lines 339-349) for files yielding no chunks. -/
def chunkPython (root filepath source : String) : List Chunk :=
  let withHeader := pyWithHeader root filepath source
    (chunkPyGo (path_relative root filepath) (splitChar '\n' source) 0 none)
  if withHeader = [] ∧ jsTrim source ≠ "" then
    [{ name := baseName filepath ++ ":full", chunk_type := "file_chunk",
       filepath := path_relative root filepath, line_start := 1,
       line_end := (splitChar '\n' source).length, text := jsTrim source }]
  else withHeader

/-! ## JavaScript chunking (`chunkJavaScript`, indexer.js lines 356-429).

The acorn parse + AST walk is the external parameter `env.jsParse`:
`none` is a parse failure (fall back to fixed-size), `some decls` the
FunctionDeclaration / ClassDeclaration / arrow-function
VariableDeclaration nodes in walk order, from which the chunks are built
exactly as in the walker callbacks (name defaulting to `(anonymous)`,
text = `lines.slice(start - 1, end).join('\n')`). -/

def chunkJavaScript (env : Env) (root filepath source : String) : List Chunk :=
  let relPath := path_relative root filepath
  let lines := splitChar '\n' source
  match env.jsParse source with
  | none => chunkFixedSize root filepath source
  | some decls =>
    let chunks := decls.map fun d =>
      { name := d.declName.getD "(anonymous)", chunk_type := d.kind,
        filepath := relPath, line_start := d.line_start,
        line_end := d.line_end,
        text := strJoin "\n" ((lines.drop (d.line_start - 1)).take
          (d.line_end - (d.line_start - 1))) }
    if chunks = [] ∧ jsTrim source ≠ "" then chunkFixedSize root filepath source
    else chunks

/-- `chunkFile`: extension dispatch (indexer.js lines 466-472). -/
def chunkFile (env : Env) (root filepath source : String) : List Chunk :=
  let ext := extName filepath
  if ext = ".py" then chunkPython root filepath source
  else if ext = ".js" ∨ ext = ".jsx" ∨ ext = ".ts" ∨ ext = ".tsx" then
    chunkJavaScript env root filepath source
  else chunkFixedSize root filepath source

/-! ## Embedding generation (`generateEmbeddings`, indexer.js lines
167-184).  The JS batches texts in groups of 16 purely to bound memory
and log progress; the embeddings are produced strictly in input order by
sequential awaits, and the first rejected promise aborts the whole call
— `none` here. -/

def generateEmbeddings (embedFn : String → Option (List ℝ)) :
    List String → Option (List (List ℝ))
  | [] => some []
  | t :: ts =>
    match embedFn t, generateEmbeddings embedFn ts with
    | some v, some vs => some (v :: vs)
    | _, _ => none

/-! ## Cache load (`loadIndex`, indexer.js lines 85-114).  A missing
cache file and a `JSON.parse` failure both return `false` before
touching the store; they are modelled together as `cache = none`.
`saveIndex` only writes to disk and does not affect the in-memory state
modelled here. -/

def loadIndex (root : String) (cache : Option Cache) (store : VectorStore) :
    Bool × VectorStore :=
  if root = "" then (false, store)
  else
    match cache with
    | none => (false, store)
    | some c =>
      if c.version ≠ CACHE_VERSION then (false, store)
      else if c.projectRoot ≠ root then (false, store)
      else (true, { vectors := c.vectors, hashMap := c.hashMap, isIndexed := true })

/-! ## configure (indexer.js lines 497-519). -/

/-- The `extras` normalisation of `configure`: split on `,`, trim, add a
leading dot when missing.  The resulting extensions are added to the
module-global `DEFAULTS.includeExtensions` set, which is not part of the
vector-store state the claims are about. -/
def parseExtras (extras : String) : List String :=
  if extras = "" then []
  else (splitChar ',' extras).map fun e =>
    let e' := jsTrim e
    if strStartsWith e' "." then e' else "." ++ e'

/-- The cleared store installed by `configure` before the cache load
(`vectorStore.vectors = []; hashMap = {}; isIndexed = false`). -/
def cleared0 : VectorStore := { vectors := [], hashMap := [], isIndexed := false }

/-- `configure(root, extras)` as it acts on the vector store: set the
project root, clear `vectors`/`hashMap`/`isIndexed`, then attempt the
cache load.  The incoming `store` is the pre-call state; the body shows
it is discarded unconditionally before the load. -/
def configure (root : String) (cache : Option Cache) (store : VectorStore) :
    VectorStore :=
  (loadIndex root cache cleared0).2

/-! ## indexProject (indexer.js lines 521-607) and reindexFile (609-647).

`files` is the `(absolute path, content)` list that `discoverFiles` +
`fs.readFileSync` produce; the per-file `try/catch` never fires in the
model because contents are given and the chunkers are total.  An
`Except.error` result carries the store as mutated when the exception
escapes (for `indexProject`: the hash map updated during the chunking
loop, the vectors untouched, since `generateEmbeddings` is awaited
before any vector mutation). -/

structure ProcessOut where
  allChunks : List Chunk
  hashMap : List (String × String)
  skipped : Nat

/-- The per-file loop of `indexProject` (lines 538-561): hash, skip
unchanged files unless `force`, otherwise chunk and commit the new
fingerprint (`vectorStore.hashMap[relPath] = hash`) immediately. -/
def processFiles (env : Env) (root : String) (force : Bool) :
    List (String × String) → List (String × String) → ProcessOut
  | [], hm => ⟨[], hm, 0⟩
  | (filepath, source) :: rest, hm =>
    let hash := env.hashFn source
    let relPath := path_relative root filepath
    if !force && (hmLookup hm relPath == some hash) then
      let out := processFiles env root force rest hm
      ⟨out.allChunks, out.hashMap, out.skipped + 1⟩
    else
      let chunks := chunkFile env root filepath source
      let out := processFiles env root force rest (hmSet hm relPath hash)
      ⟨chunks ++ out.allChunks, out.hashMap, out.skipped⟩

structure IndexResult where
  status : String
  total_files : Nat
  new_chunks : Nat
  total_chunks : Nat
  skipped : Nat

/-- The embedding input `${c.name}\n${c.text}`. -/
def chunkText (c : Chunk) : String := c.name ++ "\n" ++ c.text

/-- The new store entries: `{id: filepath + ':' + line_start, embedding,
payload}` zipped over chunks and embeddings. -/
def mkEntries (chunks : List Chunk) (embs : List (List ℝ)) :
    List VectorEntry :=
  List.zipWith (fun c e =>
    { id := c.filepath ++ ":" ++ toString c.line_start,
      embedding := e, payload := c }) chunks embs

def indexProject (env : Env) (root : String) (files : List (String × String))
    (force : Bool) (store : VectorStore) :
    Except String IndexResult × VectorStore :=
  if root = "" then (Except.error "Project path not configured", store)
  else
    let store0 := if force then { store with vectors := [], hashMap := [] }
      else store
    let out := processFiles env root force files store0.hashMap
    if out.allChunks = [] then
      let store1 := { store0 with hashMap := out.hashMap, isIndexed := true }
      (Except.ok
        { status := if 0 < store1.vectors.length then "up_to_date" else "indexed",
          total_files := files.length, new_chunks := 0,
          total_chunks := store1.vectors.length, skipped := out.skipped },
       store1)
    else
      match generateEmbeddings env.embedFn (out.allChunks.map chunkText) with
      | none =>
        (Except.error "embedding failed", { store0 with hashMap := out.hashMap })
      | some embs =>
        let reindexedFiles := out.allChunks.map fun c => c.filepath
        let kept := store0.vectors.filter fun v =>
          !(reindexedFiles.contains v.payload.filepath)
        let store1 : VectorStore :=
          { vectors := kept ++ mkEntries out.allChunks embs,
            hashMap := out.hashMap, isIndexed := true }
        (Except.ok
          { status := "indexed", total_files := files.length,
            new_chunks := out.allChunks.length,
            total_chunks := store1.vectors.length, skipped := out.skipped },
         store1)

/-- `reindexFile(filepath)` for a project-relative `filepath`;
`content = none` models the missing file (`fs.existsSync` false).  The
snapshot write (`saveSnapshot`) is disk-only.  Note the order: old
vectors for the file are removed before chunking and embedding, the new
fingerprint is committed last. -/
def reindexFile (env : Env) (root filepath : String) (content : Option String)
    (store : VectorStore) : Except String Nat × VectorStore :=
  if root = "" then (Except.error "Project path not configured", store)
  else
    match content with
    | none => (Except.error "File not found", store)
    | some source =>
      let kept := store.vectors.filter fun v => v.payload.filepath != filepath
      let chunks := chunkFile env root (pathJoin root filepath) source
      match generateEmbeddings env.embedFn (chunks.map chunkText) with
      | none => (Except.error "embedding failed", { store with vectors := kept })
      | some embs =>
        (Except.ok chunks.length,
         { vectors := kept ++ mkEntries chunks embs,
           hashMap := hmSet store.hashMap filepath (env.hashFn source),
           isIndexed := store.isIndexed })

/-! ## Derived notions used to state theorems about the chunkers. -/

/-- Join a list of lines, appending `"\n"` to each — the accumulated
`currentText` shape of the `chunkFixedSize` loop. -/
def joinNl : List String → String
  | [] => ""
  | s :: t => s ++ "\n" ++ joinNl t

/-- The lines covered by a chunk labelled `[ls, le]` (1-based,
inclusive): `lines[ls-1 .. le-1]`. -/
def fsSlice (lines : List String) (ls le : Nat) : List String :=
  (lines.drop (ls - 1)).take (le + 1 - ls)

/-- The single line of the 200-line plain-text scenario file. -/
def scenarioLine : String := "Some plain text content here."

/-- The 200-line plain-text file of the generic-chunking scenario:
200 lines of 29 characters each (~6000 characters against the 1500
budget). -/
def plainText200 : String := strJoin "\n" (List.replicate 200 scenarioLine)

/-- A single 4000-character line. -/
def longLine : String := String.mk (List.replicate 4000 'a')

/-- A string is free of whitespace at both ends (and nonempty) — the
shape of every line of the scenario files, under which `jsTrim` only
removes the trailing newline added by the chunking loop. -/
def wsFreeEnds (s : String) : Prop :=
  s.data ≠ [] ∧ (∀ c ∈ s.data.head?, isWsChar c = false) ∧
    (∀ c ∈ s.data.getLast?, isWsChar c = false)

/-- The vector-store entry built for a chunk `c` during a successful
indexing run: `{id: filepath + ':' + line_start, embedding, payload}`
with the embedding the model's output for `${c.name}\n${c.text}`. -/
def entryOf (embedFn : String → Option (List ℝ)) (c : Chunk) : VectorEntry :=
  { id := c.filepath ++ ":" ++ toString c.line_start,
    embedding := (embedFn (chunkText c)).getD [],
    payload := c }

/-! ## A small concrete project used to exercise the indexing pipeline:
one plain-text file `a.txt` with content `"hello"` under root `"r"`,
an identity hash function and a constant one-dimensional embedder. -/

/-- A concrete environment: identity hash, constant embedding `[1]`,
a JS parser that always falls back. -/
def wEnv : Env :=
  ⟨id, fun _ => some [(1 : ℝ)], fun _ => none⟩

/-- An environment whose embedder always fails (the ONNX model rejects
every input). -/
def wEnvFail : Env :=
  ⟨id, fun _ => none, fun _ => none⟩

/-- The single chunk produced for `a.txt` with content `"hello"`. -/
def wChunkA : Chunk :=
  { name := "a.txt:L1-1", chunk_type := "file_chunk", filepath := "a.txt",
    line_start := 1, line_end := 1, text := "hello" }

/-- The vector entry built for `wChunkA` by `wEnv`. -/
def wEntryA : VectorEntry :=
  { id := "a.txt:1", embedding := [(1 : ℝ)], payload := wChunkA }

/-- The store after the first successful run of `indexProject` on the
concrete project. -/
def wStore1 : VectorStore :=
  { vectors := [wEntryA],
    hashMap := [("a.txt", "hello")], isIndexed := true }

/-- The result of the first successful run of `indexProject` on the
concrete project. -/
def wRes1 : IndexResult :=
  { status := "indexed", total_files := 1, new_chunks := 1,
    total_chunks := 1, skipped := 0 }

/-- The stale chunk of the old content `"old text"` of `a.txt`. -/
def wOldChunk : Chunk :=
  { name := "a.txt:L1-1", chunk_type := "file_chunk", filepath := "a.txt",
    line_start := 1, line_end := 1, text := "old text" }

/-- A stale vector entry for the old content of `a.txt`. -/
def wOldEntry : VectorEntry :=
  { id := "a.txt:1", embedding := [(1 : ℝ)], payload := wOldChunk }

/-- A store holding the stale entry for `a.txt` and its old fingerprint. -/
def wStaleStore : VectorStore :=
  { vectors := [wOldEntry], hashMap := [("a.txt", "old")],
    isIndexed := true }

/-- The single chunk produced for `b.txt` with content `"world"`. -/
def wChunkB : Chunk :=
  { name := "b.txt:L1-1", chunk_type := "file_chunk", filepath := "b.txt",
    line_start := 1, line_end := 1, text := "world" }

/-- The vector entry built for `wChunkB` by `wEnv`. -/
def wEntryB : VectorEntry :=
  { id := "b.txt:1", embedding := [(1 : ℝ)], payload := wChunkB }

/-- A store in which `b.txt` is already indexed and fingerprinted while
`a.txt` is new: the shape of the store before an incremental run that
re-chunks `a.txt` and skips `b.txt` unchanged. -/
def wStoreB : VectorStore :=
  { vectors := [wEntryB], hashMap := [("b.txt", "world")],
    isIndexed := true }

/-- The store after incrementally indexing `a.txt` on top of `wStoreB`:
`b.txt`'s entry is untouched, `a.txt`'s new entry is appended. -/
def wStore2 : VectorStore :=
  { vectors := [wEntryB, wEntryA],
    hashMap := [("b.txt", "world"), ("a.txt", "hello")],
    isIndexed := true }

/-- The result of that incremental run: one new chunk, one skipped
file. -/
def wRes2 : IndexResult :=
  { status := "indexed", total_files := 2, new_chunks := 1,
    total_chunks := 2, skipped := 1 }

end Karp

namespace Karp

theorem joinNl_concat (a : List String) (x : String) :
    joinNl (a ++ [x]) = joinNl a ++ (x ++ "\n") := by
  induction a with
  | nil => simp [joinNl]
  | cons s t ih => simp [joinNl, ih, String.append_assoc]

theorem chunkFSGo_spec (relPath base : String) (lines : List String) :
    ∀ (rem : List String) (curLine chunkStart : Nat) (acc : String),
      rem = lines.drop (curLine - 1) →
      1 ≤ chunkStart → chunkStart ≤ curLine →
      acc = joinNl ((lines.drop (chunkStart - 1)).take (curLine - chunkStart)) →
      acc.length < maxChunkChars →
      List.Chain' (fun c₁ c₂ => c₂.line_start = c₁.line_end + 1)
          (chunkFSGo relPath base rem curLine chunkStart acc) ∧
      (∀ c₀ ∈ (chunkFSGo relPath base rem curLine chunkStart acc).head?,
          c₀.line_start = chunkStart) ∧
      (rem ≠ [] → chunkFSGo relPath base rem curLine chunkStart acc ≠ []) ∧
      (∀ cl ∈ (chunkFSGo relPath base rem curLine chunkStart acc).getLast?,
          cl.line_end = lines.length) ∧
      (∀ c ∈ chunkFSGo relPath base rem curLine chunkStart acc,
          chunkStart ≤ c.line_start ∧
          c.line_start ≤ c.line_end ∧ c.line_end ≤ lines.length ∧
          c.text = jsTrim (joinNl (fsSlice lines c.line_start c.line_end)) ∧
          (joinNl ((fsSlice lines c.line_start c.line_end).dropLast)).length
            < maxChunkChars ∧
          c.chunk_type = "file_chunk" ∧
          c.name = base ++ ":L" ++ toString c.line_start ++ "-"
            ++ toString c.line_end ∧
          c.filepath = relPath) := by
  intro rem
  induction rem with
  | nil =>
    intro curLine chunkStart acc _ _ _ _ _
    simp [chunkFSGo]
  | cons l rest ih =>
    intro curLine chunkStart acc hrem hcs1 hcsc hacc hacclen
    have hlen : lines.length - (curLine - 1) = rest.length + 1 := by
      have := congrArg List.length hrem
      simpa using this.symm
    have hcur_le : curLine ≤ lines.length := by omega
    have hl : lines[curLine - 1]? = some l := by
      have h0 : (lines.drop (curLine - 1))[0]? = some l := by
        rw [← hrem]; simp
      rwa [List.getElem?_drop, Nat.add_zero] at h0
    have hrest : rest = lines.drop curLine := by
      have h1 : List.drop 1 (l :: rest) = List.drop 1 (lines.drop (curLine - 1)) := by
        rw [hrem]
      rw [List.drop_drop] at h1
      have : curLine - 1 + 1 = curLine := by omega
      rw [this] at h1
      simpa using h1
    have hwin : (lines.drop (chunkStart - 1)).take (curLine + 1 - chunkStart) =
        (lines.drop (chunkStart - 1)).take (curLine - chunkStart) ++ [l] := by
      have hs : curLine + 1 - chunkStart = (curLine - chunkStart) + 1 := by omega
      rw [hs, List.take_succ, List.getElem?_drop]
      have hi : chunkStart - 1 + (curLine - chunkStart) = curLine - 1 := by omega
      rw [hi, hl]
      rfl
    have ht : acc ++ l ++ "\n" =
        joinNl ((lines.drop (chunkStart - 1)).take (curLine + 1 - chunkStart)) := by
      rw [hwin, joinNl_concat, ← hacc, String.append_assoc]
    rw [chunkFSGo]
    by_cases hif : maxChunkChars ≤ (acc ++ l ++ "\n").length ∨ rest = []
    · rw [if_pos hif]
      obtain ⟨ihChain, ihHead, ihNe, ihLast, ihMem⟩ :=
        ih (curLine + 1) (curLine + 1) ""
          (by rw [Nat.add_sub_cancel]; exact hrest)
          (by omega) (le_refl _)
          (by simp [joinNl]) (by simp [maxChunkChars])
      refine ⟨?_, ?_, ?_, ?_, ?_⟩
      · rw [List.chain'_cons']
        exact ⟨fun y hy => by simpa using ihHead y hy, ihChain⟩
      · intro c₀ hc₀
        simp only [List.head?_cons, Option.mem_def, Option.some.injEq] at hc₀
        subst hc₀; rfl
      · intro _; simp
      · intro cl hcl
        rw [List.getLast?_cons] at hcl
        simp only [Option.mem_def, Option.some.injEq] at hcl
        subst hcl
        cases hout : chunkFSGo relPath base rest (curLine + 1) (curLine + 1) "" with
        | nil =>
          have hrest_nil : rest = [] := by
            by_contra hne
            exact (ihNe hne) hout
          simp only [List.getLast?_nil, Option.getD_none]
          show curLine = lines.length
          rw [hrest_nil] at hlen
          simp only [List.length_nil] at hlen
          omega
        | cons c' out' =>
          rw [List.getLast?_cons, Option.getD_some]
          exact ihLast _ (by rw [hout, List.getLast?_cons]; rfl)
      · intro c hc
        rcases List.mem_cons.mp hc with hceq | hctail
        · subst hceq
          refine ⟨le_refl _, hcsc, hcur_le, ?_, ?_, rfl, rfl, rfl⟩
          · show jsTrim (acc ++ l ++ "\n") = jsTrim (joinNl (fsSlice lines chunkStart curLine))
            unfold fsSlice
            rw [← ht]
          · show (joinNl ((fsSlice lines chunkStart curLine).dropLast)).length < maxChunkChars
            unfold fsSlice
            rw [hwin, List.dropLast_concat, ← hacc]
            exact hacclen
        · obtain ⟨h1, h2, h3, h4, h5, h6, h7, h8⟩ := ihMem c hctail
          exact ⟨by omega, h2, h3, h4, h5, h6, h7, h8⟩
    · rw [if_neg hif]
      push_neg at hif
      obtain ⟨hlt, hrest_ne⟩ := hif
      obtain ⟨ihChain, ihHead, ihNe, ihLast, ihMem⟩ :=
        ih (curLine + 1) chunkStart (acc ++ l ++ "\n")
          (by rw [Nat.add_sub_cancel]; exact hrest)
          hcs1 (by omega) ht hlt
      exact ⟨ihChain, ihHead, fun _ => ihNe hrest_ne, ihLast, fun c hc => by
        obtain ⟨h1, h2, h3, h4, h5, h6, h7, h8⟩ := ihMem c hc
        exact ⟨h1, h2, h3, h4, h5, h6, h7, h8⟩⟩


/-! ### Properties of the JS string primitives. -/

theorem strJoin_cons_of_ne_nil (sep s : String) {rest : List String}
    (h : rest ≠ []) :
    strJoin sep (s :: rest) = s ++ sep ++ strJoin sep rest := by
  cases rest with
  | nil => exact absurd rfl h
  | cons a t => rfl

theorem splitCharGo_ne_nil (sep : Char) (acc l : List Char) :
    splitCharGo sep acc l ≠ [] := by
  induction l generalizing acc with
  | nil => simp [splitCharGo]
  | cons c t ih =>
    simp only [splitCharGo]
    split
    · simp
    · exact ih _

theorem splitCharGo_no_sep (sep : Char) (acc l : List Char) (h : sep ∉ l) :
    splitCharGo sep acc l = [String.mk (acc.reverse ++ l)] := by
  induction l generalizing acc with
  | nil => simp [splitCharGo]
  | cons c t ih =>
    have hc : (c == sep) = false := by
      simp only [beq_eq_false_iff_ne, ne_eq]
      intro he; exact h (he ▸ List.mem_cons_self c t)
    simp only [splitCharGo, hc, Bool.false_eq_true, if_false]
    rw [ih _ (fun hm => h (List.mem_cons_of_mem c hm))]
    congr 1
    show String.mk ((c :: acc).reverse ++ t) = String.mk (acc.reverse ++ c :: t)
    rw [List.reverse_cons, List.append_assoc]
    rfl

theorem splitCharGo_sep_append (sep : Char) (acc m rest : List Char)
    (hm : sep ∉ m) :
    splitCharGo sep acc (m ++ sep :: rest) =
      String.mk (acc.reverse ++ m) :: splitCharGo sep [] rest := by
  induction m generalizing acc with
  | nil =>
    simp [splitCharGo]
  | cons c m' ih =>
    have hc : (c == sep) = false := by
      simp only [beq_eq_false_iff_ne, ne_eq]
      intro he; exact hm (he ▸ List.mem_cons_self c m')
    have step : splitCharGo sep acc ((c :: m') ++ sep :: rest)
        = splitCharGo sep (c :: acc) (m' ++ sep :: rest) := by
      rw [List.cons_append]
      simp only [splitCharGo, hc, Bool.false_eq_true, if_false]
    rw [step, ih _ (fun h => hm (List.mem_cons_of_mem c h))]
    congr 2
    rw [List.reverse_cons, List.append_assoc]
    rfl

theorem splitChar_strJoin (ls : List String) (hne : ls ≠ [])
    (hs : ∀ s ∈ ls, '\n' ∉ s.data) :
    splitChar '\n' (strJoin "\n" ls) = ls := by
  induction ls with
  | nil => exact absurd rfl hne
  | cons s rest ih =>
    cases rest with
    | nil =>
      show splitCharGo '\n' [] s.data = [s]
      rw [splitCharGo_no_sep _ _ _ (hs s (List.mem_cons_self s []))]
      simp
    | cons a t =>
      rw [strJoin_cons_of_ne_nil _ _ (by simp)]
      show splitCharGo '\n' [] (s ++ "\n" ++ strJoin "\n" (a :: t)).data = _
      have hdata : (s ++ "\n" ++ strJoin "\n" (a :: t)).data
          = s.data ++ '\n' :: (strJoin "\n" (a :: t)).data := by
        rw [String.data_append, String.data_append, List.append_assoc]
        rfl
      rw [hdata, splitCharGo_sep_append _ _ _ _ (hs s (List.mem_cons_self s _))]
      have := ih (by simp) (fun x hx => hs x (List.mem_cons_of_mem s hx))
      rw [show splitCharGo '\n' [] (strJoin "\n" (a :: t)).data
            = splitChar '\n' (strJoin "\n" (a :: t)) from rfl, this]
      simp

theorem dropWhile_of_head_false {p : Char → Bool} {l : List Char}
    (h : ∀ c ∈ l.head?, p c = false) : l.dropWhile p = l := by
  cases l with
  | nil => rfl
  | cons c t =>
    rw [List.dropWhile_cons, if_neg]
    simp only [List.head?_cons, Option.mem_def, Option.some.injEq] at h
    simp [h c rfl]

theorem jsTrim_eq_self {s : String} (h : wsFreeEnds s) : jsTrim s = s := by
  obtain ⟨hne, hhead, hlast⟩ := h
  show String.mk (((s.data.dropWhile isWsChar).reverse.dropWhile isWsChar).reverse) = s
  rw [dropWhile_of_head_false hhead]
  rw [dropWhile_of_head_false (by rw [List.head?_reverse]; exact hlast)]
  rw [List.reverse_reverse]

theorem jsTrim_append_newline {s : String} (h : wsFreeEnds s) :
    jsTrim (s ++ "\n") = s := by
  obtain ⟨hne, hhead, hlast⟩ := h
  have hdata : (s ++ "\n").data = s.data ++ ['\n'] := by
    rw [String.data_append]
  have h1 : List.dropWhile isWsChar (s.data ++ ['\n']) = s.data ++ ['\n'] :=
    dropWhile_of_head_false (by
      rw [List.head?_append_of_ne_nil _ hne]; exact hhead)
  have h2 : (s.data ++ ['\n']).reverse = '\n' :: s.data.reverse := by
    rw [List.reverse_append]; rfl
  have h3 : List.dropWhile isWsChar ('\n' :: s.data.reverse)
      = s.data.reverse := by
    rw [List.dropWhile_cons, if_pos (show isWsChar '\n' = true from rfl)]
    exact dropWhile_of_head_false (by rw [List.head?_reverse]; exact hlast)
  show String.mk ((((s ++ "\n").data.dropWhile isWsChar).reverse.dropWhile
      isWsChar).reverse) = s
  rw [hdata, h1, h2, h3, List.reverse_reverse]

theorem wsFreeEnds_strJoin {ls : List String} (hne : ls ≠ [])
    (h : ∀ s ∈ ls, wsFreeEnds s) : wsFreeEnds (strJoin "\n" ls) := by
  induction ls with
  | nil => exact absurd rfl hne
  | cons s rest ih =>
    cases rest with
    | nil => exact h s (List.mem_cons_self s [])
    | cons a t =>
      obtain ⟨hs1, hs2, hs3⟩ := h s (List.mem_cons_self s _)
      obtain ⟨hj1, hj2, hj3⟩ :=
        ih (by simp) (fun x hx => h x (List.mem_cons_of_mem s hx))
      rw [strJoin_cons_of_ne_nil _ _ (by simp)]
      have hdata : (s ++ "\n" ++ strJoin "\n" (a :: t)).data
          = (s.data ++ ['\n']) ++ (strJoin "\n" (a :: t)).data := by
        rw [String.data_append, String.data_append]
      refine ⟨?_, ?_, ?_⟩
      · rw [hdata]; simp
      · rw [hdata, List.head?_append_of_ne_nil _ (by simp),
          List.head?_append_of_ne_nil _ hs1]
        exact hs2
      · rw [hdata, List.getLast?_append]
        cases hg : (strJoin "\n" (a :: t)).data.getLast? with
        | none =>
          exact absurd (List.getLast?_eq_none_iff.mp hg) hj1
        | some c =>
          intro x hx
          simp only [Option.or_some, Option.mem_def, Option.some.injEq] at hx
          subst hx
          exact hj3 c hg

theorem joinNl_eq_strJoin {ls : List String} (hne : ls ≠ []) :
    joinNl ls = strJoin "\n" ls ++ "\n" := by
  induction ls with
  | nil => exact absurd rfl hne
  | cons s rest ih =>
    cases rest with
    | nil => show s ++ "\n" ++ "" = s ++ "\n"; rw [String.append_empty]
    | cons a t =>
      show s ++ "\n" ++ joinNl (a :: t) = _
      rw [ih (by simp),
        show strJoin "\n" (s :: a :: t) = s ++ "\n" ++ strJoin "\n" (a :: t)
          from strJoin_cons_of_ne_nil _ _ (by simp)]
      simp only [String.append_assoc]

theorem strJoin_append {a b : List String} (ha : a ≠ []) (hb : b ≠ []) :
    strJoin "\n" (a ++ b) = strJoin "\n" a ++ "\n" ++ strJoin "\n" b := by
  induction a with
  | nil => exact absurd rfl ha
  | cons s rest ih =>
    cases rest with
    | nil =>
      rw [List.singleton_append, strJoin_cons_of_ne_nil _ _ hb]
      rfl
    | cons x y =>
      rw [List.cons_append,
        show strJoin "\n" (s :: (x :: y ++ b))
            = s ++ "\n" ++ strJoin "\n" (x :: y ++ b)
          from strJoin_cons_of_ne_nil _ _ (by simp),
        show strJoin "\n" (s :: x :: y) = s ++ "\n" ++ strJoin "\n" (x :: y)
          from strJoin_cons_of_ne_nil _ _ (by simp),
        ih (by simp)]
      simp only [String.append_assoc]

theorem flatten_ne_nil {parts : List (List String)} (hne : parts ≠ [])
    (h : ∀ p ∈ parts, p ≠ []) : parts.flatten ≠ [] := by
  cases parts with
  | nil => exact absurd rfl hne
  | cons p rest =>
    have := h p (List.mem_cons_self p rest)
    simp only [List.flatten_cons, ne_eq, List.append_eq_nil]
    intro ⟨h1, _⟩
    exact this h1

theorem strJoin_flatten {parts : List (List String)}
    (h : ∀ p ∈ parts, p ≠ []) :
    strJoin "\n" (parts.map (strJoin "\n")) = strJoin "\n" parts.flatten := by
  induction parts with
  | nil => rfl
  | cons p rest ih =>
    cases rest with
    | nil => simp [strJoin]
    | cons q t =>
      have hp := h p (List.mem_cons_self p _)
      have hrest : ∀ x ∈ q :: t, x ≠ [] :=
        fun x hx => h x (List.mem_cons_of_mem p hx)
      rw [List.map_cons, List.flatten_cons,
        strJoin_cons_of_ne_nil _ _ (by simp),
        strJoin_append hp (flatten_ne_nil (by simp) hrest),
        ih hrest]

/-! ### Coverage of the fixed-size windows. -/

theorem slices_flatten (lines : List String) :
    ∀ (cs : List Chunk),
      List.Chain' (fun c₁ c₂ => c₂.line_start = c₁.line_end + 1) cs →
      (∀ c ∈ cs, c.line_start ≤ c.line_end ∧ c.line_end ≤ lines.length) →
      ∀ s, 1 ≤ s →
      (∀ c₀ ∈ cs.head?, c₀.line_start = s) →
      (∀ cl ∈ cs.getLast?, cl.line_end = lines.length) →
      cs ≠ [] →
      (cs.map fun c => fsSlice lines c.line_start c.line_end).flatten
        = lines.drop (s - 1) := by
  intro cs
  induction cs with
  | nil => intro _ _ _ _ _ _ h; exact absurd rfl h
  | cons c rest ih =>
    intro hchain hbounds s hs hhead hlast _
    have hcs : c.line_start = s := hhead c (by simp)
    obtain ⟨hce1, hce2⟩ := hbounds c (by simp)
    cases rest with
    | nil =>
      have hcl : c.line_end = lines.length := by
        apply hlast c
        rw [List.getLast?_cons]
        rfl
      simp only [List.map_cons, List.map_nil, List.flatten_cons,
        List.flatten_nil, List.append_nil]
      unfold fsSlice
      rw [hcs, hcl]
      rw [List.take_of_length_le (by rw [List.length_drop]; omega)]
    | cons c₂ rest₂ =>
      have hc2 : c₂.line_start = c.line_end + 1 := (List.chain'_cons.mp hchain).1
      have hchain₂ := (List.chain'_cons.mp hchain).2
      have ihr := ih hchain₂ (fun x hx => hbounds x (List.mem_cons_of_mem c hx))
        (c.line_end + 1) (by omega)
        (by intro c₀ h₀
            simp only [List.head?_cons, Option.mem_def, Option.some.injEq] at h₀
            subst h₀; exact hc2)
        (by intro cl hcl
            apply hlast cl
            rw [List.getLast?_cons, List.getLast?_cons, Option.getD_some]
            rw [List.getLast?_cons] at hcl
            exact hcl)
        (by simp)
      simp only [List.map_cons, List.flatten_cons] at ihr ⊢
      rw [ihr]
      unfold fsSlice
      rw [hcs]
      have hdd : lines.drop (c.line_end + 1 - 1)
          = List.drop (c.line_end + 1 - s) (lines.drop (s - 1)) := by
        rw [List.drop_drop]
        congr 1
        omega
      rw [hdd, List.take_append_drop]

theorem joinNl_replicate_length (n : Nat) (s : String) :
    (joinNl (List.replicate n s)).length = n * (s.length + 1) := by
  induction n with
  | zero =>
    rw [List.replicate_zero, Nat.zero_mul]
    rfl
  | succ k ih =>
    rw [List.replicate_succ]
    show (s ++ "\n" ++ joinNl (List.replicate k s)).length = _
    rw [String.length_append, String.length_append, ih]
    have : ("\n" : String).length = 1 := rfl
    rw [this]
    ring

/-- The corpus of facts about `chunkFixedSize` shared by the claims about
the generic chunker: window chaining, first/last line coverage,
line-boundary texts, the budget property of each window minus its final
line, and the labels. -/
theorem chunkFixedSize_props (root filepath source : String) :
    List.Chain' (fun c₁ c₂ => c₂.line_start = c₁.line_end + 1)
      (chunkFixedSize root filepath source) ∧
    (∀ c₀ ∈ (chunkFixedSize root filepath source).head?, c₀.line_start = 1) ∧
    (jsTrim source ≠ "" → chunkFixedSize root filepath source ≠ []) ∧
    (∀ cl ∈ (chunkFixedSize root filepath source).getLast?,
      cl.line_end = (splitChar '\n' source).length) ∧
    (∀ c ∈ chunkFixedSize root filepath source,
      1 ≤ c.line_start ∧
      c.line_start ≤ c.line_end ∧
      c.line_end ≤ (splitChar '\n' source).length ∧
      c.text = jsTrim (joinNl
        (fsSlice (splitChar '\n' source) c.line_start c.line_end)) ∧
      (joinNl ((fsSlice (splitChar '\n' source)
        c.line_start c.line_end).dropLast)).length < maxChunkChars ∧
      c.chunk_type = "file_chunk" ∧
      c.name = baseName filepath ++ ":L" ++ toString c.line_start ++ "-"
        ++ toString c.line_end ∧
      c.filepath = path_relative root filepath) := by
  obtain ⟨h1, h2, h3, h4, h5⟩ :=
    chunkFSGo_spec (path_relative root filepath) (baseName filepath)
      (splitChar '\n' source) (splitChar '\n' source) 1 1 ""
      (by rw [show (1 : Nat) - 1 = 0 from rfl, List.drop_zero])
      (le_refl 1) (le_refl 1) rfl (by decide)
  by_cases hc : jsTrim source = ""
  · have hnil : chunkFixedSize root filepath source = [] := by
      simp only [chunkFixedSize]
      rw [if_pos hc]
    rw [hnil]
    simp [hc]
  · have hbody : chunkFixedSize root filepath source
        = chunkFSGo (path_relative root filepath) (baseName filepath)
            (splitChar '\n' source) 1 1 "" := by
      simp only [chunkFixedSize]
      rw [if_neg hc]
    rw [hbody]
    exact ⟨h1, h2, fun _ => h3 (splitCharGo_ne_nil _ _ _), h4, h5⟩

/-! ### Scenario facts. -/

theorem wsFreeEnds_scenarioLine : wsFreeEnds scenarioLine := by
  refine ⟨by decide, ?_, ?_⟩
  · intro c hc
    have h : scenarioLine.data.head? = some 'S' := rfl
    rw [h] at hc
    simp only [Option.mem_def, Option.some.injEq] at hc
    subst hc
    decide
  · intro c hc
    have h : scenarioLine.data.getLast? = some '.' := rfl
    rw [h] at hc
    simp only [Option.mem_def, Option.some.injEq] at hc
    subst hc
    decide

theorem wsFreeEnds_scenario_members :
    ∀ s ∈ List.replicate 200 scenarioLine, wsFreeEnds s := by
  intro s hs
  rw [(List.mem_replicate.mp hs).2]
  exact wsFreeEnds_scenarioLine

theorem splitChar_plainText200 :
    splitChar '\n' plainText200 = List.replicate 200 scenarioLine := by
  apply splitChar_strJoin
  · exact List.ne_nil_of_length_pos (by rw [List.length_replicate]; omega)
  · intro s hs
    rw [(List.mem_replicate.mp hs).2]
    decide

theorem jsTrim_plainText200 : jsTrim plainText200 = plainText200 :=
  jsTrim_eq_self (wsFreeEnds_strJoin
    (List.ne_nil_of_length_pos (by rw [List.length_replicate]; omega))
    wsFreeEnds_scenario_members)

theorem plainText200_ne_empty : plainText200 ≠ "" := by
  intro h
  have hd : plainText200.data = [] := by rw [h]
  exact (wsFreeEnds_strJoin
    (List.ne_nil_of_length_pos (by rw [List.length_replicate]; omega))
    wsFreeEnds_scenario_members).1 hd

/-! ### Claim C7 — the generic fallback chunker. -/

/-- C7, counterexample to the claim as stated: `chunkFixedSize` windows
are not bounded by the ~1500-character budget.  A single 4000-character
line yields one window of 4000 characters, since the loop cuts only at
line boundaries after the budget has been reached. -/
theorem chunkFixedSize_budget_counterexample :
    (chunkFixedSize "" "big.txt" longLine).map (fun c => c.text.length)
      = [4000] ∧ maxChunkChars < 4000 := by
  have hdata : longLine.data = List.replicate 4000 'a' := rfl
  have hne : longLine.data ≠ [] := by
    rw [hdata]
    exact List.ne_nil_of_length_pos (by rw [List.length_replicate]; omega)
  have hws : wsFreeEnds longLine := by
    refine ⟨hne, ?_, ?_⟩
    · intro c hc
      rw [hdata, List.head?_replicate, if_neg (by omega : ¬(4000 = 0))] at hc
      simp only [Option.mem_def, Option.some.injEq] at hc
      subst hc
      decide
    · intro c hc
      rw [hdata, List.getLast?_replicate, if_neg (by omega : ¬(4000 = 0))] at hc
      simp only [Option.mem_def, Option.some.injEq] at hc
      subst hc
      decide
  have hsplit : splitChar '\n' longLine = [longLine] := by
    show splitCharGo '\n' [] longLine.data = [longLine]
    rw [splitCharGo_no_sep '\n' [] longLine.data (by
      rw [hdata]
      intro hm
      exact absurd (List.mem_replicate.mp hm).2 (by decide))]
    rfl
  have hcond : ¬ jsTrim longLine = "" := by
    rw [jsTrim_eq_self hws]
    intro h
    exact hne (by rw [h])
  have hlen : longLine.length = 4000 := by
    show longLine.data.length = 4000
    rw [hdata, List.length_replicate]
  refine ⟨?_, by decide⟩
  have hbody : chunkFixedSize "" "big.txt" longLine
      = chunkFSGo (path_relative "" "big.txt") (baseName "big.txt")
          [longLine] 1 1 "" := by
    simp only [chunkFixedSize]
    rw [if_neg hcond, hsplit]
  rw [hbody]
  simp only [chunkFSGo]
  rw [if_pos (Or.inr trivial)]
  simp only [List.map_cons, List.map_nil]
  rw [show ("" : String) ++ longLine = longLine from rfl]
  rw [jsTrim_append_newline hws, hlen]

/-- C7 (amended): for every input text, `chunkFixedSize` cuts only on
line boundaries (each window's text is the trimmed newline-join of the
lines `line_start..line_end`), the windows are sequential and
non-overlapping (the first starts at line 1, each next window starts at
the previous window's `line_end + 1`, the last ends at the last line),
each window is labelled `basename:L{start}-{end}` with kind
`file_chunk`, and the budget bounds the cut position: the window's text
minus its final line is strictly under `maxChunkChars`, so a window
exceeds the 1500-character budget only by its final line (and hence can
exceed it without bound when a single line does — see the
counterexample). -/
theorem chunkFixedSize_windows (root filepath source : String) :
    List.Chain' (fun c₁ c₂ => c₂.line_start = c₁.line_end + 1)
      (chunkFixedSize root filepath source) ∧
    (∀ c₀ ∈ (chunkFixedSize root filepath source).head?, c₀.line_start = 1) ∧
    (jsTrim source ≠ "" → chunkFixedSize root filepath source ≠ []) ∧
    (∀ cl ∈ (chunkFixedSize root filepath source).getLast?,
      cl.line_end = (splitChar '\n' source).length) ∧
    (∀ c ∈ chunkFixedSize root filepath source,
      1 ≤ c.line_start ∧
      c.line_start ≤ c.line_end ∧
      c.line_end ≤ (splitChar '\n' source).length ∧
      c.text = jsTrim (joinNl
        (fsSlice (splitChar '\n' source) c.line_start c.line_end)) ∧
      (joinNl ((fsSlice (splitChar '\n' source)
        c.line_start c.line_end).dropLast)).length < maxChunkChars ∧
      c.chunk_type = "file_chunk" ∧
      c.name = baseName filepath ++ ":L" ++ toString c.line_start ++ "-"
        ++ toString c.line_end ∧
      c.filepath = path_relative root filepath) :=
  chunkFixedSize_props root filepath source

/-- Witness for C7's theorem at a concrete two-line file. -/
theorem chunkFixedSize_windows_witness :
    List.Chain' (fun c₁ c₂ => c₂.line_start = c₁.line_end + 1)
      (chunkFixedSize "" "notes.txt" "alpha\nbeta") ∧
    chunkFixedSize "" "notes.txt" "alpha\nbeta" ≠ [] :=
  ⟨(chunkFixedSize_windows "" "notes.txt" "alpha\nbeta").1,
   (chunkFixedSize_windows "" "notes.txt" "alpha\nbeta").2.2.1 (by decide)⟩

/-! ### Claim C8 — generic chunking round-trip scenario. -/

set_option maxRecDepth 8192 in
/-- C8: a 200-line plain-text file chunked against the 1500-character
budget yields more than one chunk, and joining the chunk texts back with
the newlines that `trim` removed at each window boundary reconstructs
the original file content exactly. -/
theorem chunkFixedSize_roundtrip_scenario :
    1 < (chunkFixedSize "" "big.txt" plainText200).length ∧
    strJoin "\n" ((chunkFixedSize "" "big.txt" plainText200).map fun c => c.text)
      = plainText200 := by
  obtain ⟨hchain, hhead, hne, hlast, hmem⟩ :=
    chunkFixedSize_props "" "big.txt" plainText200
  have hlines : splitChar '\n' plainText200 = List.replicate 200 scenarioLine :=
    splitChar_plainText200
  have hlineslen : (splitChar '\n' plainText200).length = 200 := by
    rw [hlines, List.length_replicate]
  have hcsne : chunkFixedSize "" "big.txt" plainText200 ≠ [] :=
    hne (by rw [jsTrim_plainText200]; exact plainText200_ne_empty)
  have hslice_ne : ∀ c ∈ chunkFixedSize "" "big.txt" plainText200,
      fsSlice (splitChar '\n' plainText200) c.line_start c.line_end ≠ [] := by
    intro c hc
    obtain ⟨hc1, hc2, hc3, _⟩ := hmem c hc
    apply List.ne_nil_of_length_pos
    unfold fsSlice
    rw [List.length_take, List.length_drop, hlineslen]
    omega
  have hslice_ws : ∀ c ∈ chunkFixedSize "" "big.txt" plainText200,
      ∀ s ∈ fsSlice (splitChar '\n' plainText200) c.line_start c.line_end,
        wsFreeEnds s := by
    intro c _ s hs
    unfold fsSlice at hs
    have hmem' : s ∈ splitChar '\n' plainText200 :=
      List.drop_subset _ _ (List.take_subset _ _ hs)
    rw [hlines] at hmem'
    exact wsFreeEnds_scenario_members s hmem'
  constructor
  · by_contra hle
    push_neg at hle
    have h1 : (chunkFixedSize "" "big.txt" plainText200).length = 1 := by
      have := List.length_pos.mpr hcsne
      omega
    obtain ⟨c, hc⟩ := List.length_eq_one.mp h1
    have hhd : c.line_start = 1 := hhead c (by rw [hc]; rfl)
    have hlst : c.line_end = 200 := by
      have h := hlast c (by rw [hc, List.getLast?_cons]; rfl)
      rw [hlineslen] at h
      exact h
    obtain ⟨_, _, _, _, hbudget, _⟩ :=
      hmem c (by rw [hc]; exact List.mem_cons_self c [])
    rw [hhd, hlst, hlines] at hbudget
    have hslice : fsSlice (List.replicate 200 scenarioLine) 1 200
        = List.replicate 200 scenarioLine := by
      unfold fsSlice
      rw [show (1 : Nat) - 1 = 0 from rfl, List.drop_zero]
      exact List.take_of_length_le (by rw [List.length_replicate])
    rw [hslice,
      show (200 : Nat) = 199 + 1 from rfl, List.replicate_succ',
      List.dropLast_concat, joinNl_replicate_length,
      show scenarioLine.length = 29 from by decide] at hbudget
    norm_num [maxChunkChars] at hbudget
  · have htext : ∀ c ∈ chunkFixedSize "" "big.txt" plainText200,
        (fun c : Chunk => c.text) c = (fun c : Chunk => strJoin "\n"
          (fsSlice (splitChar '\n' plainText200) c.line_start c.line_end)) c := by
      intro c hc
      obtain ⟨_, _, _, hc4, _⟩ := hmem c hc
      show c.text = _
      rw [hc4, joinNl_eq_strJoin (hslice_ne c hc),
        jsTrim_append_newline (wsFreeEnds_strJoin (hslice_ne c hc) (hslice_ws c hc))]
    rw [List.map_congr_left htext]
    rw [show ((chunkFixedSize "" "big.txt" plainText200).map fun c => strJoin "\n"
          (fsSlice (splitChar '\n' plainText200) c.line_start c.line_end))
        = ((chunkFixedSize "" "big.txt" plainText200).map fun c =>
            fsSlice (splitChar '\n' plainText200) c.line_start c.line_end).map
              (strJoin "\n") from by rw [List.map_map]; rfl]
    rw [strJoin_flatten (by
      intro p hp
      obtain ⟨c, hcmem, hcp⟩ := List.mem_map.mp hp
      rw [← hcp]
      exact hslice_ne c hcmem)]
    rw [slices_flatten (splitChar '\n' plainText200)
      (chunkFixedSize "" "big.txt" plainText200) hchain
      (fun c hc => ⟨(hmem c hc).2.1, (hmem c hc).2.2.1⟩) 1 (le_refl 1)
      hhead hlast hcsne]
    rw [show (1 : Nat) - 1 = 0 from rfl, List.drop_zero, hlines]
    rfl

/-! ### Claim C9 — diff correctness. -/

theorem simpleDiffGo_eq (o n : List String) :
    ∀ k i, simpleDiffGo o n i k = (List.range' i k).flatMap (diffEmit o n) := by
  intro k
  induction k with
  | zero => intro i; rfl
  | succ k ih =>
    intro i
    show diffEmit o n i ++ simpleDiffGo o n (i + 1) k = _
    rw [ih (i + 1), List.range'_succ, List.flatMap_cons]

/-- C9: `simpleDiff` is the position-aligned line comparison — after the
two header lines, it emits, for each index below the larger line count,
`-old` and `+new` when both lines exist and differ, only `+new` when the
old side has no line at that index, only `-old` when the new side has
none, and nothing when the lines agree (the content of `diffEmit`); and
on the scenario `["x","y"]` vs `["x","z"]` the diff body is exactly
`-y`, `+z`, counted by `fileDiff` as one addition and one deletion. -/
theorem simpleDiff_spec :
    (∀ (oldLines newLines : List String) (oldLabel newLabel : String),
      simpleDiff oldLines newLines oldLabel newLabel =
        ("--- " ++ oldLabel) :: ("+++ " ++ newLabel) ::
          (List.range (max oldLines.length newLines.length)).flatMap
            (diffEmit oldLines newLines)) ∧
    simpleDiff ["x", "y"] ["x", "z"] "A" "B" = ["--- A", "+++ B", "-y", "+z"] ∧
    fileDiffCounts ["x", "y"] ["x", "z"] "A" "B" = (1, 1) := by
  refine ⟨?_, by decide, by decide⟩
  intro o n ol nl
  show ("--- " ++ ol) :: ("+++ " ++ nl) ::
      simpleDiffGo o n 0 (max o.length n.length) = _
  rw [simpleDiffGo_eq, List.range_eq_range']

/-! ### Claim C3 — cosine similarity. -/

theorem normSq_nonneg (a : List ℝ) : 0 ≤ normSq a := by
  apply List.sum_nonneg
  intro x hx
  obtain ⟨y, _, hy⟩ := List.mem_map.mp hx
  rw [← hy]
  exact mul_self_nonneg y

theorem dotp_self (a : List ℝ) : dotp a a = normSq a := by
  unfold dotp normSq
  rw [List.zipWith_same]

theorem denom_self (a : List ℝ) : denom a a = normSq a :=
  Real.mul_self_sqrt (normSq_nonneg a)

theorem normSq_map_neg (a : List ℝ) : normSq (a.map fun x => -x) = normSq a := by
  unfold normSq
  rw [List.map_map]
  congr 1
  apply List.map_congr_left
  intro x _
  show -x * -x = x * x
  ring

theorem dotp_map_neg (a : List ℝ) :
    dotp a (a.map fun x => -x) = -normSq a := by
  unfold dotp normSq
  rw [List.zipWith_map_right, List.zipWith_same]
  induction a with
  | nil => simp
  | cons x t ih =>
    simp only [List.map_cons, List.sum_cons, ih]
    ring

/-- C3, counterexample to the claim as stated: the claim says the
similarity "is defined as 0 when either norm is 0", but the code has no
zero-norm guard — `dot / (Math.sqrt(normA) * Math.sqrt(normB))` is
`0 / 0 = NaN` there (modelled `none`), not `0`. -/
theorem cosineSimilarity_zero_norm_counterexample :
    cosineSimilarity [(0 : ℝ)] [(1 : ℝ)] = none ∧
    cosineSimilarity [(0 : ℝ)] [(1 : ℝ)] ≠ some 0 := by
  have h : denom [(0 : ℝ)] [(1 : ℝ)] = 0 := by
    show Real.sqrt (normSq [(0 : ℝ)]) * Real.sqrt (normSq [(1 : ℝ)]) = 0
    have h0 : normSq [(0 : ℝ)] = 0 := by simp [normSq]
    rw [h0, Real.sqrt_zero, zero_mul]
  constructor
  · unfold cosineSimilarity
    rw [if_pos h]
  · unfold cosineSimilarity
    rw [if_pos h]
    simp

/-- C3 (amended): for equal-length real vectors, `cosineSimilarity`
returns `dot(a,b) / (‖a‖·‖b‖)` whenever both norms are nonzero; when
either norm is zero the result is NaN (`none`), not 0; the similarity of
a vector with itself is exactly 1, of vectors with zero dot product
exactly 0, and of a vector with its negation exactly −1 (real
arithmetic stands in for IEEE floats, which is where the spec's
"within floating-point tolerance" lives). -/
theorem cosineSimilarity_spec (a b : List ℝ) (hlen : a.length = b.length) :
    (denom a b ≠ 0 →
      cosineSimilarity a b
        = some (dotp a b / (Real.sqrt (normSq a) * Real.sqrt (normSq b)))) ∧
    (denom a b = 0 → cosineSimilarity a b = none) ∧
    (normSq a ≠ 0 → cosineSimilarity a a = some 1) ∧
    (dotp a b = 0 → denom a b ≠ 0 → cosineSimilarity a b = some 0) ∧
    (normSq a ≠ 0 → cosineSimilarity a (a.map fun x => -x) = some (-1)) := by
  refine ⟨?_, ?_, ?_, ?_, ?_⟩
  · intro h
    unfold cosineSimilarity
    rw [if_neg h]
    rfl
  · intro h
    unfold cosineSimilarity
    rw [if_pos h]
  · intro h
    unfold cosineSimilarity
    rw [if_neg (by rw [denom_self]; exact h)]
    congr 1
    unfold cosSim
    rw [denom_self, dotp_self, div_self h]
  · intro hdot hden
    unfold cosineSimilarity
    rw [if_neg hden]
    unfold cosSim
    rw [hdot, zero_div]
  · intro h
    have hd : denom a (a.map fun x => -x) = normSq a := by
      unfold denom
      rw [normSq_map_neg]
      exact Real.mul_self_sqrt (normSq_nonneg a)
    unfold cosineSimilarity
    rw [if_neg (by rw [hd]; exact h)]
    congr 1
    unfold cosSim
    rw [hd, dotp_map_neg, neg_div, div_self h]

/-- Witness for C3's theorem: orthogonal unit vectors score exactly 0,
and a unit vector scores exactly 1 against itself. -/
theorem cosineSimilarity_spec_witness :
    cosineSimilarity [(1 : ℝ), 0] [(0 : ℝ), 1] = some 0 ∧
    cosineSimilarity [(1 : ℝ), 0] [(1 : ℝ), 0] = some 1 := by
  have h1 : normSq [(1 : ℝ), 0] = 1 := by simp [normSq]
  have h2 : normSq [(0 : ℝ), 1] = 1 := by simp [normSq]
  constructor
  · apply (cosineSimilarity_spec [(1 : ℝ), 0] [(0 : ℝ), 1] rfl).2.2.2.1
    · show (List.zipWith (· * ·) [(1 : ℝ), 0] [(0 : ℝ), 1]).sum = 0
      norm_num
    · show Real.sqrt (normSq [(1 : ℝ), 0]) * Real.sqrt (normSq [(0 : ℝ), 1]) ≠ 0
      rw [h1, h2, Real.sqrt_one, one_mul]
      norm_num
  · apply (cosineSimilarity_spec [(1 : ℝ), 0] [(1 : ℝ), 0] rfl).2.2.1
    rw [h1]
    norm_num

/-! ### Claim C4 — search ranking. -/

theorem filter_orderedInsert_eq {x : Scored} {sv : ℝ} (hx : x.score = sv)
    (l : List Scored) :
    (List.orderedInsert (fun a b : Scored => b.score ≤ a.score) x l).filter
        (fun y => decide (y.score = sv))
      = x :: l.filter (fun y => decide (y.score = sv)) := by
  induction l with
  | nil => simp [List.orderedInsert, hx]
  | cons b t ih =>
    rw [List.orderedInsert]
    by_cases hrb : b.score ≤ x.score
    · rw [if_pos hrb, List.filter_cons, if_pos (by simp [hx])]
    · rw [if_neg hrb]
      have hb : ¬ b.score = sv := fun h => hrb (le_of_eq (hx ▸ h))
      rw [List.filter_cons, if_neg (by simp [hb]), ih,
        List.filter_cons, if_neg (by simp [hb])]

theorem filter_orderedInsert_ne {x : Scored} {sv : ℝ} (hx : ¬ x.score = sv)
    (l : List Scored) :
    (List.orderedInsert (fun a b : Scored => b.score ≤ a.score) x l).filter
        (fun y => decide (y.score = sv))
      = l.filter (fun y => decide (y.score = sv)) := by
  induction l with
  | nil => simp [List.orderedInsert, hx]
  | cons b t ih =>
    rw [List.orderedInsert]
    by_cases hrb : b.score ≤ x.score
    · rw [if_pos hrb, List.filter_cons, if_neg (by simp [hx])]
    · rw [if_neg hrb, List.filter_cons, ih, List.filter_cons]

/-- Stability of the model sort: filtering the sorted list down to any
single score value yields the candidates of that score in their
original (insertion) order. -/
theorem filter_insertionSort_score (sv : ℝ) (l : List Scored) :
    (List.insertionSort (fun a b : Scored => b.score ≤ a.score) l).filter
        (fun y => decide (y.score = sv))
      = l.filter (fun y => decide (y.score = sv)) := by
  induction l with
  | nil => rfl
  | cons x t ih =>
    show (List.orderedInsert _ x (List.insertionSort _ t)).filter _ = _
    by_cases hx : x.score = sv
    · rw [filter_orderedInsert_eq hx, ih, List.filter_cons, if_pos (by simp [hx])]
    · rw [filter_orderedInsert_ne hx, ih, List.filter_cons, if_neg (by simp [hx])]

/-- C4: for a fixed query vector and entry set whose scores are all
defined (no zero-norm NaNs, where the JS comparator would be
inconsistent and the sort order implementation-defined), `vectorSearch`
is the `limit`-prefix of the sorted candidate list; that sorted list is
a permutation of the filtered, scored candidates, is ordered by
non-increasing score — hence so is the truncated result — and ties are
broken by original insertion order: filtering to any fixed score value
returns those candidates in input order (stable sort). -/
theorem vectorSearch_ranking (queryEmbedding : List ℝ) (limit : Nat)
    (filterFn : Option (Chunk → Bool)) (store : VectorStore)
    (hdef : ∀ v ∈ store.vectors,
      cosineSimilarity queryEmbedding v.embedding ≠ none) :
    vectorSearch queryEmbedding limit filterFn store
      = (vectorSearchSorted queryEmbedding filterFn store).take limit ∧
    (vectorSearchSorted queryEmbedding filterFn store).Perm
      (scoredCandidates queryEmbedding filterFn store) ∧
    List.Pairwise (fun x y : Scored => y.score ≤ x.score)
      (vectorSearchSorted queryEmbedding filterFn store) ∧
    List.Pairwise (fun x y : Scored => y.score ≤ x.score)
      (vectorSearch queryEmbedding limit filterFn store) ∧
    (∀ sv : ℝ,
      (vectorSearchSorted queryEmbedding filterFn store).filter
          (fun x => decide (x.score = sv))
        = (scoredCandidates queryEmbedding filterFn store).filter
          (fun x => decide (x.score = sv))) := by
  letI : IsTotal Scored (fun x y : Scored => y.score ≤ x.score) :=
    ⟨fun x y => le_total y.score x.score⟩
  letI : IsTrans Scored (fun x y : Scored => y.score ≤ x.score) :=
    ⟨fun _ _ _ hxy hyz => le_trans hyz hxy⟩
  have hsorted : List.Pairwise (fun x y : Scored => y.score ≤ x.score)
      (vectorSearchSorted queryEmbedding filterFn store) :=
    List.sorted_insertionSort _ _
  refine ⟨rfl, List.perm_insertionSort _ _, hsorted, ?_, ?_⟩
  · exact List.Pairwise.sublist (List.take_sublist _ _) hsorted
  · intro sv
    exact filter_insertionSort_score sv _

/-- Witness for C4's theorem at a two-entry store with scores 1 and −1.
-/
theorem vectorSearch_ranking_witness :
    List.Pairwise (fun x y : Scored => y.score ≤ x.score)
      (vectorSearch [(1 : ℝ)] 5 none
        ⟨[⟨"a.txt:1", [(1 : ℝ)], ⟨"a", "file_chunk", "a.txt", 1, 1, "x"⟩⟩,
          ⟨"b.txt:1", [(-1 : ℝ)], ⟨"b", "file_chunk", "b.txt", 1, 1, "y"⟩⟩],
         [], true⟩) := by
  have hne : ∀ emb : List ℝ, normSq emb = 1 →
      cosineSimilarity [(1 : ℝ)] emb ≠ none := by
    intro emb hemb
    have hd : denom [(1 : ℝ)] emb ≠ 0 := by
      show Real.sqrt (normSq [(1 : ℝ)]) * Real.sqrt (normSq emb) ≠ 0
      rw [hemb, show normSq [(1 : ℝ)] = 1 from by norm_num [normSq],
        Real.sqrt_one, one_mul]
      norm_num
    unfold cosineSimilarity
    rw [if_neg hd]
    simp
  apply (vectorSearch_ranking [(1 : ℝ)] 5 none _ ?_).2.2.2.1
  intro v hv
  simp only [List.mem_cons, List.not_mem_nil, or_false] at hv
  rcases hv with h | h
  · subst h
    exact hne _ (by norm_num [normSq])
  · subst h
    exact hne _ (by norm_num [normSq])

/-! ### Every chunker stamps its chunks with the relative path. -/

theorem chunkPyGo_filepath (relPath : String) (lines : List String) :
    ∀ (i : Nat) (cur : Option PyCur),
      ∀ c ∈ chunkPyGo relPath lines i cur, c.filepath = relPath := by
  intro i cur
  induction i, cur using chunkPyGo.induct relPath lines with
  | case1 i cur hlt line clsM fnM hcond info scan nextI ih =>
    intro c hc
    rw [chunkPyGo.eq_def, dif_pos hlt, if_pos hcond] at hc
    rcases List.mem_append.mp hc with hm | hm
    · cases cur with
      | none => simp at hm
      | some c0 =>
        have hm2 : c ∈ (if 0 < c0.curLines.length
            then [pyFlush relPath c0 i] else []) := hm
        by_cases hl : 0 < c0.curLines.length
        · rw [if_pos hl] at hm2
          simp only [List.mem_singleton] at hm2
          subst hm2
          rfl
        · rw [if_neg hl] at hm2
          simp at hm2
    · exact ih c hm
  | case2 i hlt line clsM fnM hcond ih =>
    intro c hc
    rw [chunkPyGo.eq_def, dif_pos hlt, if_neg hcond] at hc
    exact ih c hc
  | case3 i hlt line clsM fnM hcond c0 hcont ih =>
    intro c hc
    rw [chunkPyGo.eq_def, dif_pos hlt, if_neg hcond] at hc
    have hc2 : c ∈ (if jsTrim line = ""
          ∨ c0.indent < countLeadingWs line.data then
        chunkPyGo relPath lines (i + 1)
          (some { c0 with curLines := c0.curLines ++ [line] })
      else pyFlush relPath c0 i :: chunkPyGo relPath lines (i + 1) none) := hc
    rw [if_pos hcont] at hc2
    exact ih c hc2
  | case4 i hlt line clsM fnM hcond c0 hcont ih =>
    intro c hc
    rw [chunkPyGo.eq_def, dif_pos hlt, if_neg hcond] at hc
    have hc2 : c ∈ (if jsTrim line = ""
          ∨ c0.indent < countLeadingWs line.data then
        chunkPyGo relPath lines (i + 1)
          (some { c0 with curLines := c0.curLines ++ [line] })
      else pyFlush relPath c0 i :: chunkPyGo relPath lines (i + 1) none) := hc
    rw [if_neg hcont] at hc2
    rcases List.mem_cons.mp hc2 with hm | hm
    · subst hm; rfl
    · exact ih c hm
  | case5 i hlt c0 hlen =>
    intro c hc
    rw [chunkPyGo.eq_def, dif_neg hlt] at hc
    have hc2 : c ∈ (if 0 < c0.curLines.length
        then [pyFlush relPath c0 lines.length] else []) := hc
    rw [if_pos hlen] at hc2
    simp only [List.mem_singleton] at hc2
    subst hc2
    rfl
  | case6 i hlt c0 hlen =>
    intro c hc
    rw [chunkPyGo.eq_def, dif_neg hlt] at hc
    have hc2 : c ∈ (if 0 < c0.curLines.length
        then [pyFlush relPath c0 lines.length] else []) := hc
    rw [if_neg hlen] at hc2
    simp at hc2
  | case7 i hlt =>
    intro c hc
    rw [chunkPyGo.eq_def, dif_neg hlt] at hc
    simp at hc

theorem pyWithHeader_filepath (root filepath source : String)
    (chunks : List Chunk)
    (h : ∀ c ∈ chunks, c.filepath = path_relative root filepath) :
    ∀ c ∈ pyWithHeader root filepath source chunks,
      c.filepath = path_relative root filepath := by
  intro c hc
  cases chunks with
  | nil => exact absurd hc (by simp [pyWithHeader])
  | cons c0 rest =>
    simp only [pyWithHeader] at hc
    by_cases h1 : 1 < c0.line_start
    · rw [if_pos h1] at hc
      by_cases h2 : jsTrim (strJoin "\n"
          ((splitChar '\n' source).take (c0.line_start - 1))) ≠ ""
      · rw [if_pos h2] at hc
        rcases List.mem_cons.mp hc with hm | hm
        · subst hm; rfl
        · exact h c hm
      · rw [if_neg h2] at hc
        exact h c hc
    · rw [if_neg h1] at hc
      exact h c hc

theorem chunkPython_filepath (root filepath source : String) :
    ∀ c ∈ chunkPython root filepath source,
      c.filepath = path_relative root filepath := by
  intro c hc
  simp only [chunkPython] at hc
  by_cases hcond : pyWithHeader root filepath source
      (chunkPyGo (path_relative root filepath) (splitChar '\n' source) 0 none)
      = [] ∧ jsTrim source ≠ ""
  · rw [if_pos hcond] at hc
    simp only [List.mem_singleton] at hc
    subst hc
    rfl
  · rw [if_neg hcond] at hc
    exact pyWithHeader_filepath root filepath source _
      (fun c' hc' => chunkPyGo_filepath _ _ 0 none c' hc') c hc

theorem chunkJavaScript_filepath (env : Env) (root filepath source : String) :
    ∀ c ∈ chunkJavaScript env root filepath source,
      c.filepath = path_relative root filepath := by
  intro c hc
  simp only [chunkJavaScript] at hc
  cases hp : env.jsParse source with
  | none =>
    rw [hp] at hc
    exact (((chunkFixedSize_props root filepath source).2.2.2.2)
      c hc).2.2.2.2.2.2.2
  | some decls =>
    rw [hp] at hc
    have hc2 : c ∈ (if (decls.map fun d =>
        ({ name := d.declName.getD "(anonymous)", chunk_type := d.kind,
           filepath := path_relative root filepath, line_start := d.line_start,
           line_end := d.line_end,
           text := strJoin "\n" (((splitChar '\n' source).drop
             (d.line_start - 1)).take (d.line_end - (d.line_start - 1))) }
          : Chunk)) = [] ∧ jsTrim source ≠ "" then
        chunkFixedSize root filepath source
      else (decls.map fun d =>
        ({ name := d.declName.getD "(anonymous)", chunk_type := d.kind,
           filepath := path_relative root filepath, line_start := d.line_start,
           line_end := d.line_end,
           text := strJoin "\n" (((splitChar '\n' source).drop
             (d.line_start - 1)).take (d.line_end - (d.line_start - 1))) }
          : Chunk))) := hc
    by_cases hcond : (decls.map fun d =>
        ({ name := d.declName.getD "(anonymous)", chunk_type := d.kind,
           filepath := path_relative root filepath, line_start := d.line_start,
           line_end := d.line_end,
           text := strJoin "\n" (((splitChar '\n' source).drop
             (d.line_start - 1)).take (d.line_end - (d.line_start - 1))) }
          : Chunk)) = [] ∧ jsTrim source ≠ ""
    · rw [if_pos hcond] at hc2
      exact (((chunkFixedSize_props root filepath source).2.2.2.2)
        c hc2).2.2.2.2.2.2.2
    · rw [if_neg hcond] at hc2
      obtain ⟨d, _, hdc⟩ := List.mem_map.mp hc2
      rw [← hdc]

theorem chunkFile_filepath (env : Env) (root filepath source : String) :
    ∀ c ∈ chunkFile env root filepath source,
      c.filepath = path_relative root filepath := by
  intro c hc
  simp only [chunkFile] at hc
  by_cases h1 : extName filepath = ".py"
  · rw [if_pos h1] at hc
    exact chunkPython_filepath root filepath source c hc
  · rw [if_neg h1] at hc
    by_cases h2 : extName filepath = ".js" ∨ extName filepath = ".jsx"
        ∨ extName filepath = ".ts" ∨ extName filepath = ".tsx"
    · rw [if_pos h2] at hc
      exact chunkJavaScript_filepath env root filepath source c hc
    · rw [if_neg h2] at hc
      exact (((chunkFixedSize_props root filepath source).2.2.2.2)
        c hc).2.2.2.2.2.2.2

/-! ### hashMap and processFiles lemmas. -/

theorem hmLookup_hmSet_self (hm : List (String × String)) (k v : String) :
    hmLookup (hmSet hm k v) k = some v := by
  induction hm with
  | nil => simp [hmSet, hmLookup]
  | cons p t ih =>
    obtain ⟨k', v'⟩ := p
    simp only [hmSet]
    by_cases h : k' = k
    · rw [if_pos h]
      simp [hmLookup]
    · rw [if_neg h]
      simp only [hmLookup, if_neg h]
      exact ih

theorem hmLookup_hmSet_ne (hm : List (String × String)) {k' k : String}
    (h : k' ≠ k) (v : String) :
    hmLookup (hmSet hm k' v) k = hmLookup hm k := by
  induction hm with
  | nil => simp [hmSet, hmLookup, if_neg h]
  | cons p t ih =>
    obtain ⟨k0, v0⟩ := p
    simp only [hmSet]
    by_cases h0 : k0 = k'
    · rw [if_pos h0]
      simp only [hmLookup, if_neg h, if_neg (h0 ▸ h)]
    · rw [if_neg h0]
      simp only [hmLookup]
      by_cases h1 : k0 = k
      · rw [if_pos h1, if_pos h1]
      · rw [if_neg h1, if_neg h1]
        exact ih

/-- Files whose relative path differs from `k` leave the fingerprint at
`k` unchanged. -/
theorem processFiles_lookup_preserved (env : Env) (root : String)
    (force : Bool) (k : String) :
    ∀ (files : List (String × String)) (hm : List (String × String)),
      (∀ f ∈ files, path_relative root f.1 ≠ k) →
      hmLookup (processFiles env root force files hm).hashMap k
        = hmLookup hm k := by
  intro files
  induction files with
  | nil => intro hm _; rfl
  | cons f rest ih =>
    intro hm hne
    obtain ⟨filepath, source⟩ := f
    simp only [processFiles]
    by_cases hskip : (!force
        && (hmLookup hm (path_relative root filepath)
              == some (env.hashFn source))) = true
    · rw [if_pos hskip]
      exact ih hm (fun g hg => hne g (List.mem_cons_of_mem _ hg))
    · rw [if_neg hskip]
      rw [ih _ (fun g hg => hne g (List.mem_cons_of_mem _ hg))]
      exact hmLookup_hmSet_ne hm
        (hne (filepath, source) (List.mem_cons_self _ _)) _

/-- After a run of the per-file loop, every file's fingerprint is its
fresh hash (changed files were committed during the loop; unchanged
files already carried it). -/
theorem processFiles_lookup (env : Env) (root : String) (force : Bool) :
    ∀ (files : List (String × String)) (hm : List (String × String)),
      (files.map fun f => path_relative root f.1).Nodup →
      ∀ fp src, (fp, src) ∈ files →
        hmLookup (processFiles env root force files hm).hashMap
          (path_relative root fp) = some (env.hashFn src) := by
  intro files
  induction files with
  | nil => intro hm _ fp src h; exact absurd h (List.not_mem_nil _)
  | cons f rest ih =>
    intro hm hnd fp src hmem
    obtain ⟨filepath, source⟩ := f
    rw [List.map_cons, List.nodup_cons] at hnd
    have hrest_ne : ∀ g ∈ rest, path_relative root g.1
        ≠ path_relative root filepath := by
      intro g hg heq
      exact hnd.1 (heq ▸ List.mem_map_of_mem (fun x => path_relative root x.1) hg)
    simp only [processFiles]
    rcases List.mem_cons.mp hmem with hhd | htl
    · rw [Prod.mk.injEq] at hhd
      obtain ⟨hfp1, hfp2⟩ := hhd
      subst hfp1
      subst hfp2
      by_cases hskip : (!force
          && (hmLookup hm (path_relative root fp)
                == some (env.hashFn src))) = true
      · rw [if_pos hskip]
        rw [processFiles_lookup_preserved env root force _ rest hm
          (fun g hg => hrest_ne g hg)]
        have := (Bool.and_eq_true _ _).mp hskip
        exact beq_iff_eq.mp this.2
      · rw [if_neg hskip]
        rw [processFiles_lookup_preserved env root force _ rest _
          (fun g hg => hrest_ne g hg)]
        exact hmLookup_hmSet_self hm _ _
    · by_cases hskip : (!force
          && (hmLookup hm (path_relative root filepath)
                == some (env.hashFn source))) = true
      · rw [if_pos hskip]
        exact ih hm hnd.2 fp src htl
      · rw [if_neg hskip]
        exact ih _ hnd.2 fp src htl

/-- When every file's stored fingerprint matches and `force` is off, the
loop does nothing: no chunks, hash map untouched, everything skipped. -/
theorem processFiles_all_skip (env : Env) (root : String) :
    ∀ (files : List (String × String)) (hm : List (String × String)),
      (∀ f ∈ files,
        hmLookup hm (path_relative root f.1) = some (env.hashFn f.2)) →
      processFiles env root false files hm = ⟨[], hm, files.length⟩ := by
  intro files
  induction files with
  | nil => intro hm _; rfl
  | cons f rest ih =>
    intro hm hall
    obtain ⟨filepath, source⟩ := f
    simp only [processFiles]
    rw [if_pos (by
      rw [Bool.not_false, Bool.true_and]
      exact beq_iff_eq.mpr (hall (filepath, source) (List.mem_cons_self _ _)))]
    rw [ih hm (fun g hg => hall g (List.mem_cons_of_mem _ hg))]
    rfl

/-! ### Claim C6 — cache-load rejection. -/

/-- C6: `loadIndex` rejects a persisted cache whose `version` differs
from `CACHE_VERSION` or whose stored `projectRoot` differs from the
configured root, returning `false` and leaving the in-memory store
completely unmodified — it never partially populates state (the store is
written only after both checks pass). -/
theorem loadIndex_rejects_mismatch (root : String) (c : Cache)
    (store : VectorStore)
    (h : c.version ≠ CACHE_VERSION ∨ c.projectRoot ≠ root) :
    loadIndex root (some c) store = (false, store) := by
  unfold loadIndex
  by_cases hr : root = ""
  · rw [if_pos hr]
  · rw [if_neg hr]
    show (if c.version ≠ CACHE_VERSION then ((false : Bool), store)
      else if c.projectRoot ≠ root then ((false : Bool), store)
      else ((true : Bool), ⟨c.vectors, c.hashMap, true⟩)) = ((false : Bool), store)
    rcases h with h | h
    · rw [if_pos h]
    · by_cases hv : c.version ≠ CACHE_VERSION
      · rw [if_pos hv]
      · rw [if_neg hv, if_pos h]

/-- Witness for C6's theorem: a cache with version 2 for the right root
is rejected without touching the store. -/
theorem loadIndex_rejects_mismatch_witness :
    loadIndex "r" (some ⟨2, "r", [], []⟩) ⟨[], [("a.txt", "h")], true⟩
      = (false, ⟨[], [("a.txt", "h")], true⟩) :=
  loadIndex_rejects_mismatch "r" ⟨2, "r", [], []⟩ ⟨[], [("a.txt", "h")], true⟩
    (Or.inl (by decide))

/-! ### Claim C10 — no cross-project contamination. -/

/-- C10: the vectors held after `configure(root)` never depend on the
previous in-memory state — `configure` clears the store before the cache
load, and the load installs entries only from a cache whose stored
`projectRoot` equals the new root (and whose version matches, under a
nonempty root); in every other case the store ends up empty.  Switching
projects therefore never leaves entries from the previous root in the
store. -/
theorem configure_no_cross_project_contamination (root : String)
    (cache : Option Cache) (store : VectorStore) :
    (configure root cache store).vectors
      = match cache with
        | some c =>
          if c.version = CACHE_VERSION ∧ c.projectRoot = root ∧ root ≠ ""
          then c.vectors else []
        | none => [] := by
  unfold configure loadIndex
  cases cache with
  | none =>
    show ((if root = "" then ((false : Bool), cleared0)
        else ((false : Bool), cleared0)).2).vectors = ([] : List VectorEntry)
    by_cases hr : root = ""
    · rw [if_pos hr]; rfl
    · rw [if_neg hr]; rfl
  | some c =>
    show ((if root = "" then ((false : Bool), cleared0)
        else if c.version ≠ CACHE_VERSION then ((false : Bool), cleared0)
        else if c.projectRoot ≠ root then ((false : Bool), cleared0)
        else ((true : Bool),
          ⟨c.vectors, c.hashMap, true⟩)).2).vectors
      = (if c.version = CACHE_VERSION ∧ c.projectRoot = root ∧ root ≠ ""
         then c.vectors else [])
    by_cases hr : root = ""
    · rw [if_pos hr, if_neg (by simp [hr])]; rfl
    · rw [if_neg hr]
      by_cases hv : c.version = CACHE_VERSION
      · by_cases hp : c.projectRoot = root
        · rw [if_neg (by simp [hv] : ¬ c.version ≠ CACHE_VERSION),
            if_neg (by simp [hp] : ¬ c.projectRoot ≠ root),
            if_pos ⟨hv, hp, hr⟩]
        · rw [if_neg (by simp [hv] : ¬ c.version ≠ CACHE_VERSION),
            if_pos (by simp [hp] : c.projectRoot ≠ root),
            if_neg (by simp [hp])]
          rfl
      · rw [if_pos (by simp [hv] : c.version ≠ CACHE_VERSION),
            if_neg (by simp [hv])]
        rfl

/-! ### Characterising a run of indexProject. -/

theorem bool_if_false {α : Sort u} (a b : α) :
    (if (false : Bool) = true then a else b) = b := rfl

theorem generateEmbeddings_eq (embedFn : String → Option (List ℝ)) :
    ∀ (ts : List String) (vs : List (List ℝ)),
      generateEmbeddings embedFn ts = some vs →
      vs = ts.map fun t => (embedFn t).getD [] := by
  intro ts
  induction ts with
  | nil =>
    intro vs h
    simp only [generateEmbeddings, Option.some.injEq] at h
    rw [← h]
    rfl
  | cons t ts ih =>
    intro vs h
    simp only [generateEmbeddings] at h
    split at h
    next v vs' he hr =>
      simp only [Option.some.injEq] at h
      rw [← h, List.map_cons, ← ih vs' hr, he]
      rfl
    next =>
      exact absurd h (by simp)

theorem mkEntries_map (embedFn : String → Option (List ℝ))
    (chunks : List Chunk) :
    mkEntries chunks (chunks.map fun c => (embedFn (chunkText c)).getD [])
      = chunks.map fun c =>
          ({ id := c.filepath ++ ":" ++ toString c.line_start,
             embedding := (embedFn (chunkText c)).getD [],
             payload := c } : VectorEntry) := by
  unfold mkEntries
  rw [List.zipWith_map_right, List.zipWith_same]

theorem processFiles_allChunks (env : Env) (root : String) :
    ∀ (files : List (String × String)) (hm : List (String × String)),
      (files.map fun f => path_relative root f.1).Nodup →
      (processFiles env root false files hm).allChunks
        = ((files.filter fun f =>
            !(hmLookup hm (path_relative root f.1)
                == some (env.hashFn f.2))).flatMap
            fun f => chunkFile env root f.1 f.2) := by
  intro files
  induction files with
  | nil => intro hm _; rfl
  | cons f rest ih =>
    intro hm hnd
    obtain ⟨filepath, source⟩ := f
    rw [List.map_cons, List.nodup_cons] at hnd
    simp only [processFiles]
    by_cases hskip : (!false && (hmLookup hm (path_relative root filepath)
        == some (env.hashFn source))) = true
    · rw [if_pos hskip]
      have hlk : (hmLookup hm (path_relative root filepath)
          == some (env.hashFn source)) = true := by simpa using hskip
      show (processFiles env root false rest hm).allChunks = _
      rw [List.filter_cons, if_neg (by simp [hlk])]
      exact ih hm hnd.2
    · rw [if_neg hskip]
      have hlk : (hmLookup hm (path_relative root filepath)
          == some (env.hashFn source)) = false := by
        cases hb : (hmLookup hm (path_relative root filepath)
            == some (env.hashFn source)) with
        | false => rfl
        | true => exact absurd (by simp [hb]) hskip
      show chunkFile env root filepath source
          ++ (processFiles env root false rest
              (hmSet hm (path_relative root filepath)
                (env.hashFn source))).allChunks = _
      rw [List.filter_cons, if_pos (by simp [hlk]), List.flatMap_cons]
      congr 1
      rw [ih _ hnd.2]
      congr 1
      apply List.filter_congr
      intro g hg
      have hne : path_relative root filepath ≠ path_relative root g.1 :=
        fun he => hnd.1 (he ▸ List.mem_map_of_mem
          (fun x => path_relative root x.1) hg)
      rw [hmLookup_hmSet_ne hm hne]

theorem flatMap_chunks_filter_ne (env : Env) (root p : String) :
    ∀ (fs : List (String × String)),
      (∀ g ∈ fs, path_relative root g.1 ≠ p
        ∨ chunkFile env root g.1 g.2 = []) →
      ((fs.flatMap fun f => chunkFile env root f.1 f.2).filter
        fun c => c.filepath == p) = [] := by
  intro fs
  induction fs with
  | nil => intro _; rfl
  | cons g rest ih =>
    intro h
    rw [List.flatMap_cons, List.filter_append,
      ih (fun x hx => h x (List.mem_cons_of_mem _ hx)), List.append_nil]
    rcases h g (List.mem_cons_self _ _) with hne | hnil
    · apply List.filter_eq_nil_iff.mpr
      intro c hc
      rw [chunkFile_filepath env root g.1 g.2 c hc]
      simp [hne]
    · rw [hnil]
      rfl

theorem flatMap_chunks_filter_eq (env : Env) (root fp src : String) :
    ∀ (fs : List (String × String)),
      (fs.map fun f => path_relative root f.1).Nodup →
      (fp, src) ∈ fs →
      ((fs.flatMap fun f => chunkFile env root f.1 f.2).filter
        fun c => c.filepath == path_relative root fp)
      = chunkFile env root fp src := by
  intro fs
  induction fs with
  | nil => intro _ h; exact absurd h (List.not_mem_nil _)
  | cons g rest ih =>
    intro hnd hmem
    rw [List.map_cons, List.nodup_cons] at hnd
    rw [List.flatMap_cons, List.filter_append]
    rcases List.mem_cons.mp hmem with hhd | htl
    · cases hhd
      rw [List.filter_eq_self.mpr (fun c hc => by
          rw [chunkFile_filepath env root fp src c hc]; simp)]
      rw [flatMap_chunks_filter_ne env root (path_relative root fp) rest
        (fun x hx => Or.inl (fun he => hnd.1 (by
          show path_relative root fp
            ∈ List.map (fun f => path_relative root f.1) rest
          rw [← he]
          exact List.mem_map_of_mem (fun y => path_relative root y.1) hx))),
        List.append_nil]
    · have hg_ne : path_relative root g.1 ≠ path_relative root fp := by
        intro he
        apply hnd.1
        have hmm : path_relative root fp
            ∈ List.map (fun f => path_relative root f.1) rest :=
          List.mem_map_of_mem (fun y => path_relative root y.1) htl
        rw [← he] at hmm
        exact hmm
      rw [List.filter_eq_nil_iff.mpr (fun c hc => by
          rw [chunkFile_filepath env root g.1 g.2 c hc]; simp [hg_ne]),
        List.nil_append]
      exact ih hnd.2 htl

theorem filter_map_entry (p : String) (embedFn : String → Option (List ℝ))
    (chunks : List Chunk) :
    ((chunks.map fun c =>
        ({ id := c.filepath ++ ":" ++ toString c.line_start,
           embedding := (embedFn (chunkText c)).getD [],
           payload := c } : VectorEntry)).filter
      fun v => v.payload.filepath == p)
    = (chunks.filter fun c => c.filepath == p).map fun c =>
        ({ id := c.filepath ++ ":" ++ toString c.line_start,
           embedding := (embedFn (chunkText c)).getD [],
           payload := c } : VectorEntry) := by
  induction chunks with
  | nil => rfl
  | cons c t ih =>
    simp only [List.map_cons, List.filter_cons]
    by_cases h : (c.filepath == p) = true
    · rw [if_pos h, if_pos h, List.map_cons, ih]
    · rw [if_neg h, if_neg h, ih]

theorem kept_filter_mem {p : String} {reindexed : List String}
    (hmem : p ∈ reindexed) (l : List VectorEntry) :
    ((l.filter fun v => !(reindexed.contains v.payload.filepath)).filter
      fun v => v.payload.filepath == p) = [] := by
  rw [List.filter_filter]
  apply List.filter_eq_nil_iff.mpr
  intro v _
  by_cases h : v.payload.filepath = p
  · simp [h, hmem]
  · simp [h]

theorem kept_filter_not_mem {p : String} {reindexed : List String}
    (hmem : p ∉ reindexed) (l : List VectorEntry) :
    ((l.filter fun v => !(reindexed.contains v.payload.filepath)).filter
      fun v => v.payload.filepath == p)
    = l.filter fun v => v.payload.filepath == p := by
  rw [List.filter_filter]
  apply List.filter_congr
  intro v _
  by_cases h : v.payload.filepath = p
  · simp [h, hmem]
  · simp [h]

/-! ## Path round-trip and filter helpers for the upsert theorems. -/

theorem path_relative_pathJoin (root fp : String) :
    path_relative root (pathJoin root fp) = fp := by
  by_cases h : root = ""
  · simp [pathJoin, path_relative, h]
  · simp only [pathJoin, path_relative, if_neg h]
    rw [if_pos (List.isPrefixOf_iff_prefix.mpr (by
      rw [String.data_append]
      exact List.prefix_append _ _))]
    rw [String.data_append]
    rw [show root.length + 1 = (root ++ "/").data.length from by
      rw [String.data_append, List.length_append]
      rfl]
    rw [List.drop_left]

theorem filter_ne_filter_eq (p : String) (l : List VectorEntry) :
    ((l.filter fun v => v.payload.filepath != p).filter
      fun v => v.payload.filepath == p) = [] := by
  rw [List.filter_filter]
  apply List.filter_eq_nil_iff.mpr
  intro v _
  by_cases h : v.payload.filepath = p <;> simp [h]

theorem filter_ne_filter_other {p q : String} (h : q ≠ p)
    (l : List VectorEntry) :
    ((l.filter fun v => v.payload.filepath != p).filter
      fun v => v.payload.filepath == q)
    = l.filter fun v => v.payload.filepath == q := by
  rw [List.filter_filter]
  apply List.filter_congr
  intro v _
  by_cases hv : v.payload.filepath = q
  · simp [hv, h]
  · simp [hv]

/-! ## Characterising runs of `indexProject`. -/

theorem indexProject_ok_hashMap (env : Env) (root : String)
    (files : List (String × String)) (force : Bool) (store : VectorStore)
    (r : IndexResult) (store' : VectorStore) (hroot : root ≠ "")
    (h : indexProject env root files force store = (Except.ok r, store')) :
    store'.hashMap
      = (processFiles env root force files
          (if force then { store with vectors := [], hashMap := [] }
            else store).hashMap).hashMap
    ∧ store'.isIndexed = true := by
  cases force with
  | false =>
    simp only [indexProject] at h
    rw [if_neg hroot, if_neg Bool.false_ne_true] at h
    split at h
    · rw [Prod.mk.injEq] at h
      obtain ⟨-, h2⟩ := h
      subst h2
      exact ⟨rfl, rfl⟩
    · split at h
      · rw [Prod.mk.injEq] at h
        exact absurd h.1 (by simp)
      · rw [Prod.mk.injEq] at h
        obtain ⟨-, h2⟩ := h
        subst h2
        exact ⟨rfl, rfl⟩
  | true =>
    simp only [indexProject] at h
    rw [if_neg hroot, if_pos trivial] at h
    split at h
    · rw [Prod.mk.injEq] at h
      obtain ⟨-, h2⟩ := h
      subst h2
      exact ⟨rfl, rfl⟩
    · split at h
      · rw [Prod.mk.injEq] at h
        exact absurd h.1 (by simp)
      · rw [Prod.mk.injEq] at h
        obtain ⟨-, h2⟩ := h
        subst h2
        exact ⟨rfl, rfl⟩

theorem indexProject_all_unchanged (env : Env) (root : String)
    (files : List (String × String)) (v : List VectorEntry)
    (hm : List (String × String)) (b : Bool) (hroot : root ≠ "")
    (hall : ∀ f ∈ files,
      hmLookup hm (path_relative root f.1) = some (env.hashFn f.2)) :
    indexProject env root files false ⟨v, hm, b⟩
      = (Except.ok
          { status := if 0 < v.length then "up_to_date" else "indexed",
            total_files := files.length, new_chunks := 0,
            total_chunks := v.length, skipped := files.length },
         ⟨v, hm, true⟩) := by
  simp only [indexProject]
  rw [if_neg hroot, if_neg Bool.false_ne_true]
  rw [show (⟨v, hm, b⟩ : VectorStore).hashMap = hm from rfl]
  rw [processFiles_all_skip env root files hm hall]
  rfl

/-- C2: Idempotence of indexing.  After any successful `indexProject`
run (any `force`) over a file tree whose relative paths are distinct,
re-running `indexProject` with `force = false` on the same unchanged
file contents skips every file, produces zero new chunks, reports
`up_to_date` when the store holds entries (`indexed` when it holds
none), leaves the entry count — indeed the entire store — unchanged,
and succeeds. -/
theorem indexProject_idempotent (env : Env) (root : String)
    (files : List (String × String)) (force : Bool) (store : VectorStore)
    (r₁ : IndexResult) (store₁ : VectorStore)
    (hroot : root ≠ "")
    (hnd : (files.map fun f => path_relative root f.1).Nodup)
    (h1 : indexProject env root files force store = (Except.ok r₁, store₁)) :
    indexProject env root files false store₁
      = (Except.ok
          { status := if 0 < store₁.vectors.length then "up_to_date"
              else "indexed",
            total_files := files.length, new_chunks := 0,
            total_chunks := store₁.vectors.length,
            skipped := files.length },
         store₁) := by
  obtain ⟨hhm, hidx⟩ :=
    indexProject_ok_hashMap env root files force store r₁ store₁ hroot h1
  have hall : ∀ f ∈ files,
      hmLookup store₁.hashMap (path_relative root f.1)
        = some (env.hashFn f.2) := by
    intro f hf
    rw [hhm]
    exact processFiles_lookup env root force files _ hnd f.1 f.2 hf
  obtain ⟨v, hm, ix⟩ := store₁
  simp only at hidx
  subst hidx
  exact indexProject_all_unchanged env root files v hm true hroot hall

theorem indexProject_idempotent_witness :
    indexProject wEnv "r" [("r/a.txt", "hello")] false wStore1
      = (Except.ok
          { status := "up_to_date", total_files := 1, new_chunks := 0,
            total_chunks := 1, skipped := 1 },
         wStore1) :=
  indexProject_idempotent wEnv "r" [("r/a.txt", "hello")] false cleared0
    wRes1 wStore1 (by decide) (by decide) rfl

theorem indexProject_hashMap (env : Env) (root : String)
    (files : List (String × String)) (force : Bool) (store : VectorStore)
    (hroot : root ≠ "") :
    (indexProject env root files force store).2.hashMap
      = (processFiles env root force files
          (if force then { store with vectors := [], hashMap := [] }
            else store).hashMap).hashMap := by
  cases force with
  | false =>
    simp only [indexProject]
    rw [if_neg hroot, if_neg Bool.false_ne_true]
    split
    · rfl
    · split
      · rfl
      · rfl
  | true =>
    simp only [indexProject]
    rw [if_neg hroot, if_pos trivial]
    split
    · rfl
    · split
      · rfl
      · rfl

theorem indexProject_error_frame (env : Env) (root : String)
    (files : List (String × String)) (store : VectorStore) (e : String)
    (hroot : root ≠ "")
    (h : (indexProject env root files false store).1 = Except.error e) :
    (indexProject env root files false store).2.vectors = store.vectors
    ∧ (indexProject env root files false store).2.isIndexed
      = store.isIndexed := by
  by_cases hA : (processFiles env root false files store.hashMap).allChunks = []
  · simp only [indexProject] at h
    rw [if_neg hroot, if_neg Bool.false_ne_true, if_pos hA] at h
    exact absurd h (by simp)
  · cases hG : generateEmbeddings env.embedFn
        ((processFiles env root false files store.hashMap).allChunks.map
          chunkText) with
    | none =>
      constructor
      · simp only [indexProject]
        rw [if_neg hroot, if_neg Bool.false_ne_true, if_neg hA, hG]
      · simp only [indexProject]
        rw [if_neg hroot, if_neg Bool.false_ne_true, if_neg hA, hG]
    | some embs =>
      simp only [indexProject] at h
      rw [if_neg hroot, if_neg Bool.false_ne_true, if_neg hA, hG] at h
      exact absurd h (by simp)

/-- C5 counterexample: the spec requires fingerprints to be committed
only after a successful upsert, but `indexProject` commits them inside
the per-file chunking loop, before embedding.  On the concrete project
(`a.txt` containing `"hello"`) with an embedder that always fails, the
run errors with `"embedding failed"` and no vector is ever upserted,
yet the returned store carries the freshly committed fingerprint for
`a.txt`. -/
theorem fingerprint_commit_counterexample :
    indexProject wEnvFail "r" [("r/a.txt", "hello")] false cleared0
      = (Except.error "embedding failed",
         { vectors := [], hashMap := [("a.txt", "hello")],
           isIndexed := false })
    ∧ hmLookup (indexProject wEnvFail "r" [("r/a.txt", "hello")] false
        cleared0).2.hashMap "a.txt" = some "hello" :=
  ⟨rfl, rfl⟩

/-- C5 (amended): fingerprint commit ordering.  In an incremental
`indexProject` run (`force = false`, distinct relative paths, configured
root) the fingerprints of all files — including skipped ones — are
present in the returned store regardless of whether embedding succeeds,
because the code commits each fingerprint at chunking time; the true
error-handling guarantee is only that on failure the vectors and the
`isIndexed` flag are left unchanged, while the fingerprint map is
already updated. -/
theorem indexProject_fingerprint_commit (env : Env) (root : String)
    (files : List (String × String)) (store : VectorStore)
    (hroot : root ≠ "")
    (hnd : (files.map fun f => path_relative root f.1).Nodup) :
    (∀ fp src, (fp, src) ∈ files →
      hmLookup ((indexProject env root files false store).2).hashMap
        (path_relative root fp) = some (env.hashFn src))
    ∧ (∀ e, (indexProject env root files false store).1 = Except.error e →
        (indexProject env root files false store).2.vectors = store.vectors
        ∧ (indexProject env root files false store).2.isIndexed
          = store.isIndexed) := by
  constructor
  · intro fp src hmem
    rw [indexProject_hashMap env root files false store hroot]
    exact processFiles_lookup env root false files _ hnd fp src hmem
  · intro e h
    exact indexProject_error_frame env root files store e hroot h

theorem indexProject_fingerprint_commit_witness :
    (hmLookup (indexProject wEnvFail "r" [("r/a.txt", "hello")] false
        cleared0).2.hashMap (path_relative "r" "r/a.txt")
      = some (wEnvFail.hashFn "hello"))
    ∧ ((indexProject wEnvFail "r" [("r/a.txt", "hello")] false
          cleared0).2.vectors = cleared0.vectors
      ∧ (indexProject wEnvFail "r" [("r/a.txt", "hello")] false
          cleared0).2.isIndexed = cleared0.isIndexed) :=
  ⟨(indexProject_fingerprint_commit wEnvFail "r" [("r/a.txt", "hello")]
      cleared0 (by decide) (by decide)).1 "r/a.txt" "hello" (by decide),
   (indexProject_fingerprint_commit wEnvFail "r" [("r/a.txt", "hello")]
      cleared0 (by decide) (by decide)).2 "embedding failed" rfl⟩

theorem vs_vectors (a : List VectorEntry) (b : List (String × String))
    (c : Bool) :
    ({ vectors := a, hashMap := b, isIndexed := c } : VectorStore).vectors
      = a := rfl

/-- C1 counterexample: re-indexing a changed file whose new content
produces zero chunks (here `a.txt` changed to the empty string) leaves
the file's previous chunks in the store: the run succeeds, even reports
`up_to_date` with `skipped = 0`, and the stale entry survives. -/
theorem upsert_atomicity_counterexample :
    chunkFile wEnv "r" "r/a.txt" "" = []
    ∧ indexProject wEnv "r" [("r/a.txt", "")] false wStaleStore
      = (Except.ok
          { status := "up_to_date", total_files := 1, new_chunks := 0,
            total_chunks := 1, skipped := 0 },
         { vectors := [wOldEntry], hashMap := [("a.txt", "")],
           isIndexed := true })
    ∧ (indexProject wEnv "r" [("r/a.txt", "")] false
        wStaleStore).2.vectors.filter
          (fun v => v.payload.filepath == "a.txt") = [wOldEntry] :=
  ⟨rfl, rfl, rfl⟩

/-- C1 (amended): upsert behaviour of re-indexing.  In an incremental
`indexProject` run that succeeds, a changed file `fp` whose new content
yields at least one chunk ends up with exactly its new entries and none
of its previous ones, and the entries of every other file are untouched
— both unchanged in-tree files (every file of the tree at path `q` has
a matching fingerprint, so it is skipped and contributes no chunks) and
paths outside the tree (for which the hypothesis holds vacuously); in a
successful `reindexFile` run the target file likewise ends up with
exactly its new entries and every other file's entries are untouched.
(The original claim fails when the new content yields zero chunks — see
the counterexample — so the nonempty-chunks hypothesis is required.) -/
theorem upsert_atomicity (env : Env) (root : String)
    (files : List (String × String)) (store : VectorStore)
    (r : IndexResult) (store' : VectorStore) (fp src : String)
    (rfp rsrc : String) (rstore rstore' : VectorStore) (n : Nat)
    (hroot : root ≠ "")
    (hnd : (files.map fun f => path_relative root f.1).Nodup)
    (hmem : (fp, src) ∈ files)
    (hproc : ¬ hmLookup store.hashMap (path_relative root fp)
        = some (env.hashFn src))
    (hch : chunkFile env root fp src ≠ [])
    (hrun : indexProject env root files false store = (Except.ok r, store'))
    (hrerun : reindexFile env root rfp (some rsrc) rstore
        = (Except.ok n, rstore')) :
    (store'.vectors.filter
        fun v => v.payload.filepath == path_relative root fp)
      = (chunkFile env root fp src).map (entryOf env.embedFn)
    ∧ (∀ q, (∀ f ∈ files, path_relative root f.1 = q →
          hmLookup store.hashMap (path_relative root f.1)
            = some (env.hashFn f.2)) →
        (store'.vectors.filter fun v => v.payload.filepath == q)
          = store.vectors.filter fun v => v.payload.filepath == q)
    ∧ (rstore'.vectors.filter fun v => v.payload.filepath == rfp)
      = (chunkFile env root (pathJoin root rfp) rsrc).map
          (entryOf env.embedFn)
    ∧ (∀ q, q ≠ rfp →
        (rstore'.vectors.filter fun v => v.payload.filepath == q)
          = rstore.vectors.filter fun v => v.payload.filepath == q) := by
  have hAC : (processFiles env root false files store.hashMap).allChunks
      = ((files.filter fun f =>
          !(hmLookup store.hashMap (path_relative root f.1)
              == some (env.hashFn f.2))).flatMap
          fun f => chunkFile env root f.1 f.2) :=
    processFiles_allChunks env root files store.hashMap hnd
  have hmemFF : (fp, src) ∈ files.filter fun f =>
      !(hmLookup store.hashMap (path_relative root f.1)
          == some (env.hashFn f.2)) :=
    List.mem_filter.mpr ⟨hmem, by simp [hproc]⟩
  have hndFF : ((files.filter fun f =>
      !(hmLookup store.hashMap (path_relative root f.1)
          == some (env.hashFn f.2))).map
      fun f => path_relative root f.1).Nodup :=
    List.Nodup.sublist
      (List.Sublist.map (fun f => path_relative root f.1)
        (List.filter_sublist files)) hnd
  have hfilter_eq : ((processFiles env root false files
        store.hashMap).allChunks.filter
        fun c => c.filepath == path_relative root fp)
      = chunkFile env root fp src := by
    rw [hAC]
    exact flatMap_chunks_filter_eq env root fp src _ hndFF hmemFF
  have hACne :
      (processFiles env root false files store.hashMap).allChunks ≠ [] := by
    intro h0
    exact hch (by rw [← hfilter_eq, h0]; rfl)
  simp only [indexProject] at hrun
  rw [if_neg hroot, if_neg Bool.false_ne_true, if_neg hACne] at hrun
  cases hG : generateEmbeddings env.embedFn
      ((processFiles env root false files store.hashMap).allChunks.map
        chunkText) with
  | none =>
    rw [hG] at hrun
    exact absurd (congrArg Prod.fst hrun) (by simp)
  | some embs =>
    rw [hG] at hrun
    simp only [Prod.mk.injEq] at hrun
    obtain ⟨-, hstore'⟩ := hrun
    subst hstore'
    have hembs : embs
        = (processFiles env root false files store.hashMap).allChunks.map
          fun c => (env.embedFn (chunkText c)).getD [] := by
      rw [generateEmbeddings_eq env.embedFn _ _ hG, List.map_map]
      rfl
    simp only [reindexFile] at hrerun
    rw [if_neg hroot] at hrerun
    cases hG2 : generateEmbeddings env.embedFn
        ((chunkFile env root (pathJoin root rfp) rsrc).map chunkText) with
    | none =>
      rw [hG2] at hrerun
      exact absurd (congrArg Prod.fst hrerun) (by simp)
    | some rembs =>
      rw [hG2] at hrerun
      simp only [Prod.mk.injEq] at hrerun
      obtain ⟨-, hrstore'⟩ := hrerun
      subst hrstore'
      have hrembs : rembs
          = (chunkFile env root (pathJoin root rfp) rsrc).map
            fun c => (env.embedFn (chunkText c)).getD [] := by
        rw [generateEmbeddings_eq env.embedFn _ _ hG2, List.map_map]
        rfl
      have hcfp : ∀ c ∈ chunkFile env root (pathJoin root rfp) rsrc,
          c.filepath = rfp := by
        intro c hc
        rw [chunkFile_filepath env root (pathJoin root rfp) rsrc c hc,
          path_relative_pathJoin]
      refine ⟨?_, ?_, ?_, ?_⟩
      · rw [vs_vectors, List.filter_append, hembs,
          mkEntries_map env.embedFn, filter_map_entry, hfilter_eq]
        have hrelmem : path_relative root fp
            ∈ (processFiles env root false files store.hashMap).allChunks.map
              fun c => c.filepath := by
          obtain ⟨c, hc⟩ := List.exists_mem_of_ne_nil _ hch
          have hcAC : c ∈ (processFiles env root false files
              store.hashMap).allChunks := by
            rw [hAC]
            exact List.mem_flatMap.mpr ⟨(fp, src), hmemFF, hc⟩
          exact chunkFile_filepath env root fp src c hc
            ▸ List.mem_map_of_mem (fun c => c.filepath) hcAC
        rw [kept_filter_mem hrelmem, List.nil_append]
        rfl
      · intro q hq
        have hqFF : ∀ g ∈ (files.filter fun f =>
            !(hmLookup store.hashMap (path_relative root f.1)
                == some (env.hashFn f.2))),
            path_relative root g.1 ≠ q := by
          intro g hg he
          obtain ⟨hgf, hgp⟩ := List.mem_filter.mp hg
          rw [hq g hgf he] at hgp
          simp at hgp
        rw [vs_vectors, List.filter_append, hembs,
          mkEntries_map env.embedFn, filter_map_entry]
        have hnone : ((processFiles env root false files
            store.hashMap).allChunks.filter
            fun c => c.filepath == q) = [] := by
          rw [hAC]
          exact flatMap_chunks_filter_ne env root q _
            (fun g hg => Or.inl (hqFF g hg))
        rw [hnone, List.map_nil, List.append_nil]
        have hqnm : q ∉ (processFiles env root false files
            store.hashMap).allChunks.map fun c => c.filepath := by
          intro hqm
          obtain ⟨c, hcA, hcq⟩ := List.mem_map.mp hqm
          rw [hAC] at hcA
          obtain ⟨g, hgFF, hcg⟩ := List.mem_flatMap.mp hcA
          exact hqFF g hgFF
            (by rw [← chunkFile_filepath env root g.1 g.2 c hcg]; exact hcq)
        exact kept_filter_not_mem hqnm store.vectors
      · rw [vs_vectors, List.filter_append, hrembs,
          mkEntries_map env.embedFn, filter_map_entry]
        have hfself : ((chunkFile env root (pathJoin root rfp) rsrc).filter
            fun c => c.filepath == rfp)
            = chunkFile env root (pathJoin root rfp) rsrc :=
          List.filter_eq_self.mpr (fun c hc => by rw [hcfp c hc]; simp)
        rw [hfself, filter_ne_filter_eq, List.nil_append]
        rfl
      · intro q hqne
        rw [vs_vectors, List.filter_append, hrembs,
          mkEntries_map env.embedFn, filter_map_entry]
        have hfnil : ((chunkFile env root (pathJoin root rfp) rsrc).filter
            fun c => c.filepath == q) = [] :=
          List.filter_eq_nil_iff.mpr (fun c hc => by
            rw [hcfp c hc]
            simp only [beq_iff_eq]
            exact fun h => hqne h.symm)
        rw [hfnil, List.map_nil, List.append_nil]
        exact filter_ne_filter_other hqne rstore.vectors

theorem upsert_atomicity_witness :
    ((wStore2.vectors.filter
        fun v => v.payload.filepath == path_relative "r" "r/a.txt")
      = (chunkFile wEnv "r" "r/a.txt" "hello").map (entryOf wEnv.embedFn))
    ∧ ((wStore2.vectors.filter fun v => v.payload.filepath == "b.txt")
      = wStoreB.vectors.filter fun v => v.payload.filepath == "b.txt")
    ∧ ((wStore1.vectors.filter fun v => v.payload.filepath == "a.txt")
      = (chunkFile wEnv "r" (pathJoin "r" "a.txt") "hello").map
          (entryOf wEnv.embedFn))
    ∧ ((wStore1.vectors.filter fun v => v.payload.filepath == "c.txt")
      = wStaleStore.vectors.filter fun v => v.payload.filepath == "c.txt") :=
  have h := upsert_atomicity wEnv "r"
    [("r/a.txt", "hello"), ("r/b.txt", "world")] wStoreB wRes2
    wStore2 "r/a.txt" "hello" "a.txt" "hello" wStaleStore wStore1 1
    (by decide) (by decide) (by decide) (by decide) (by decide) rfl rfl
  ⟨h.1, h.2.1 "b.txt" (by decide), h.2.2.1, h.2.2.2 "c.txt" (by decide)⟩
end Karp
